import Mathlib

/-!
Verification of the dua disk-usage analyzer against its specification.

This file shallowly embeds the core data model and operations of the Go
source (internal/scanner/streamer.go, internal/scanner/scanner.go and the
tree-synchronization code of cmd/dua/main.go) and proves or refutes the
frozen claims about them.

Modelling conventions:
* Filesystem paths are modelled as lists of path segments
  (`GoPath := List String`).  Go's `filepath.Dir` is `List.dropLast`,
  `filepath.Join parent name` is `parent ++ [name]`.  The two loop
  terminators of the Go size-propagation walks, the strings "/" and ".",
  are both the empty segment list `[]` in this model: `filepath.Dir`
  reaches "/" on absolute paths and "." on relative ones, and in both
  cases the walk condition `path != "/" && path != "."` is `path ≠ []`.
* Go `int64`/`int` counters are modelled as `Int`.  None of the claims
  concerns wrap-around behaviour, and directory sizes in the program are
  far below the `int64` range, so no modular reduction is applied.
* Go mutation through a pointer returned by `findDirectoryInTree` is
  modelled by `updateAt`, which rewrites exactly the node that
  `findDirectoryInTree` returns (the first match in the same depth-first
  order) and leaves the tree unchanged when the path is absent.
-/

/-- Path model: a filesystem path as its list of segments. -/
abbrev GoPath : Type := List String

/-- Go filepath.Dir on a clean path: drop the last segment. -/
def dirOf (p : GoPath) : GoPath := p.dropLast

/-- Go filepath.Join of a directory path and an entry name. -/
def joinPath (p : GoPath) (n : String) : GoPath := p ++ [n]

/-- FileInfo from internal/scanner/scanner.go: name and byte size of a file. -/
structure FileInfo where
  name : String
  size : Int
deriving Repr, DecidableEq

/-- DirInfo from internal/scanner/scanner.go.  The Go struct is
(Path, Size, Files, Subdirs, IsLoaded, IsLoading, FileCount, SubdirCount);
the recursive `Subdirs []DirInfo` field makes this a nested inductive. -/
inductive DirInfo : Type where
  | mk (path : GoPath) (size : Int) (files : List FileInfo)
      (subdirs : List DirInfo) (isLoaded : Bool) (isLoading : Bool)
      (fileCount : Int) (subdirCount : Int) : DirInfo
deriving Repr

/-- Field accessor for DirInfo.Path. -/
def DirInfo.path : DirInfo → GoPath
  | .mk p _ _ _ _ _ _ _ => p

/-- Field accessor for DirInfo.Size. -/
def DirInfo.size : DirInfo → Int
  | .mk _ s _ _ _ _ _ _ => s

/-- Field accessor for DirInfo.Files. -/
def DirInfo.files : DirInfo → List FileInfo
  | .mk _ _ fs _ _ _ _ _ => fs

/-- Field accessor for DirInfo.Subdirs. -/
def DirInfo.subdirs : DirInfo → List DirInfo
  | .mk _ _ _ sd _ _ _ _ => sd

/-- Field accessor for DirInfo.IsLoaded. -/
def DirInfo.isLoaded : DirInfo → Bool
  | .mk _ _ _ _ ld _ _ _ => ld

/-- Field accessor for DirInfo.IsLoading. -/
def DirInfo.isLoading : DirInfo → Bool
  | .mk _ _ _ _ _ lg _ _ => lg

/-- Field accessor for DirInfo.FileCount. -/
def DirInfo.fileCount : DirInfo → Int
  | .mk _ _ _ _ _ _ fc _ => fc

/-- Field accessor for DirInfo.SubdirCount. -/
def DirInfo.subdirCount : DirInfo → Int
  | .mk _ _ _ _ _ _ _ sc => sc

/-- Replace the Size field of a node, keeping everything else. -/
def DirInfo.withSize (d : DirInfo) (s : Int) : DirInfo :=
  match d with
  | .mk p _ fs sd ld lg fc sc => .mk p s fs sd ld lg fc sc

/-- Replace the Subdirs field of a node, keeping everything else. -/
def DirInfo.withSubdirs (d : DirInfo) (l : List DirInfo) : DirInfo :=
  match d with
  | .mk p s fs _ ld lg fc sc => .mk p s fs l ld lg fc sc

/-- Go statement node.Size += delta, used by updateParentSizesFromChild. -/
def addSizeFn (delta : Int) (d : DirInfo) : DirInfo := d.withSize (d.size + delta)

/-- Sum of the Size fields of a list of FileInfo (direct file bytes). -/
def sumFileSizes : List FileInfo → Int
  | [] => 0
  | f :: fs => f.size + sumFileSizes fs

/-- Sum of the Size fields of a list of DirInfo (direct child totals). -/
def sumSubdirSizes : List DirInfo → Int
  | [] => 0
  | d :: ds => d.size + sumSubdirSizes ds

/-- Loop body of updateParentSizes in cmd/dua/main.go: recompute a node's
Size from its direct files and the Size of each subdirectory. -/
def recomputeSizeFn (d : DirInfo) : DirInfo :=
  d.withSize (sumFileSizes d.files + sumSubdirSizes d.subdirs)

mutual

/-- findDirectoryInTree from cmd/dua/main.go: depth-first search by exact
path equality; the node itself is checked before its subdirectories. -/
def findDirectoryInTree : DirInfo → GoPath → Option DirInfo
  | .mk p s fs sds ld lg fc sc, target =>
    if p = target then some (.mk p s fs sds ld lg fc sc)
    else findInSubdirs sds target

/-- Helper of findDirectoryInTree: search the subdirectory list in order. -/
def findInSubdirs : List DirInfo → GoPath → Option DirInfo
  | [], _ => none
  | d :: ds, target =>
    match findDirectoryInTree d target with
    | some r => some r
    | none => findInSubdirs ds target

end

/-- Whether a node with the given path occurs in the tree. -/
def containsPath (t : DirInfo) (q : GoPath) : Bool :=
  (findDirectoryInTree t q).isSome

mutual

/-- Model of a Go mutation through the pointer returned by
findDirectoryInTree: rewrite the first node (in the same depth-first
order) whose path equals the target; the tree is unchanged if the path is
absent, matching the Go nil-check before each mutation. -/
def updateAt : DirInfo → GoPath → (DirInfo → DirInfo) → DirInfo
  | .mk p s fs sds ld lg fc sc, target, f =>
    if p = target then f (.mk p s fs sds ld lg fc sc)
    else .mk p s fs (updateAtList sds target f) ld lg fc sc

/-- Helper of updateAt: rewrite inside the first subdirectory whose
subtree contains the target path. -/
def updateAtList : List DirInfo → GoPath → (DirInfo → DirInfo) → List DirInfo
  | [], _, _ => []
  | d :: ds, target, f =>
    if containsPath d target then updateAt d target f :: ds
    else d :: updateAtList ds target f

end

/-- Nonempty initial segment lists of a path, in ascending length order.
For [a,b,c] this is [[a], [a,b], [a,b,c]]. -/
def initSegsAsc : GoPath → List GoPath
  | [] => []
  | x :: rest => [x] :: (initSegsAsc rest).map (fun q => x :: q)

/-- Paths visited by the Go walks `for path != "/" && path != "."
... path = filepath.Dir(path)` starting at p: all nonempty initial
segments of p, deepest first. -/
def chainDesc (p : GoPath) : List GoPath := (initSegsAsc p).reverse

/-- updateParentSizesFromChild from cmd/dua/main.go: walk from parentPath
up to the root, adding childSize to the Size of every node found at each
visited path; the walk stops when the path becomes "/" or "." (the empty
segment list here). -/
def updateParentSizesFromChild (root : DirInfo) (parentPath : GoPath)
    (childSize : Int) : DirInfo :=
  (chainDesc parentPath).foldl (fun t q => updateAt t q (addSizeFn childSize)) root

/-- updateParentSizes from cmd/dua/main.go: walk from the given path up to
the root, recomputing the Size of every node found at each visited path
from its direct files and subdirectory totals; the walk stops when the
path becomes "/" or ".". -/
def updateParentSizes (root : DirInfo) (path : GoPath) : DirInfo :=
  (chainDesc path).foldl (fun t q => updateAt t q recomputeSizeFn) root

/-- Loop body of integrateDirectoryIntoTree: replace the first
subdirectory entry whose path equals the snapshot's path. -/
def replaceFirstSubdir (l : List DirInfo) (snapshot : DirInfo) : List DirInfo :=
  match l with
  | [] => []
  | c :: cs =>
    if c.path = snapshot.path then snapshot :: cs
    else c :: replaceFirstSubdir cs snapshot

/-- Whether some subdirectory entry has the snapshot's path (the loop of
integrateDirectoryIntoTree finds a match). -/
def hasSubdirWithPath (l : List DirInfo) (q : GoPath) : Bool :=
  l.any (fun c => c.path == q)

/-- integrateDirectoryIntoTree from cmd/dua/main.go: locate the parent
directory of the snapshot's path, replace the matching subdirectory entry
with the snapshot, and add the snapshot's size to every ancestor via
updateParentSizesFromChild.  If the parent is not found, or no
subdirectory entry matches, nothing happens. -/
def integrateDirectoryIntoTree (root : DirInfo) (dirInfo : DirInfo) : DirInfo :=
  let parentPath := dirOf dirInfo.path
  match findDirectoryInTree root parentPath with
  | none => root
  | some parentDir =>
    if hasSubdirWithPath parentDir.subdirs dirInfo.path then
      updateParentSizesFromChild
        (updateAt root parentPath
          (fun d => d.withSubdirs (replaceFirstSubdir d.subdirs dirInfo)))
        parentPath dirInfo.size
    else root

/-- File-removal loop of removeItemFromTree: remove the first file entry
f with parent.Path ++ [f.Name] equal to the target, subtracting its size
from the parent.  Returns the new list and the removed size (0 if none). -/
def removeFileEntry (parentPath : GoPath) (fs : List FileInfo)
    (target : GoPath) : List FileInfo × Int :=
  match fs with
  | [] => ([], 0)
  | f :: rest =>
    if joinPath parentPath f.name = target then (rest, f.size)
    else
      let (rest', s) := removeFileEntry parentPath rest target
      (f :: rest', s)

/-- Subdir-removal loop of removeItemFromTree: remove the first
subdirectory entry whose path equals the target, subtracting its size and
decrementing SubdirCount.  Returns the new list, the removed size and
whether a removal happened. -/
def removeSubdirEntry (sds : List DirInfo) (target : GoPath) :
    List DirInfo × Int × Bool :=
  match sds with
  | [] => ([], 0, false)
  | c :: rest =>
    if c.path = target then (rest, c.size, true)
    else
      let (rest', s, b) := removeSubdirEntry rest target
      (c :: rest', s, b)

/-- Parent mutation of removeItemFromTree: the Go code first runs the
file-removal loop, then the subdir-removal loop, adjusting Size after
each removal and decrementing SubdirCount on a subdir removal. -/
def removeFromParentFn (target : GoPath) (d : DirInfo) : DirInfo :=
  match d with
  | .mk p s fs sds ld lg fc sc =>
    let (fs', fsize) := removeFileEntry p fs target
    let (sds', dsize, dhit) := removeSubdirEntry sds target
    .mk p (s - fsize - dsize) fs' sds' ld lg fc (if dhit then sc - 1 else sc)

/-- removeItemFromTree from cmd/dua/main.go: locate the parent directory
of the target path; if found, detach the matching file or subdirectory
entry, subtract its size from the parent, and re-run updateParentSizes
from the parent path upward. -/
def removeItemFromTree (root : DirInfo) (targetPath : GoPath) : DirInfo :=
  let parentPath := dirOf targetPath
  match findDirectoryInTree root parentPath with
  | none => root
  | some _ =>
    updateParentSizes (updateAt root parentPath (removeFromParentFn targetPath))
      parentPath

/-- StreamingUpdate from internal/scanner/streamer.go.  The ScanTime
field (a wall-clock duration) is not modelled; no claim concerns it. -/
structure StreamingUpdate where
  path : GoPath
  fileCount : Int
  dirCount : Int
  totalSize : Int
  dirInfo : Option DirInfo
  isComplete : Bool

/-- StreamingUpdateMsg handler of ui Update in cmd/dua/main.go, for one
non-complete update carrying a snapshot: if the update's path equals the
model's currentPath the root is replaced wholesale, otherwise the
snapshot is integrated into the tree. -/
def processUpdate (currentPath : GoPath) (root : DirInfo) (di : DirInfo) : DirInfo :=
  if di.path = currentPath then di
  else integrateDirectoryIntoTree root di

/-- Directory entry as seen by os.ReadDir in streamer.go's scanDirectory:
either a directory entry, or a non-directory entry whose metadata
(entry.Info) is readable with the given byte size, or unreadable. -/
inductive FsEntry : Type where
  | dirE (name : String) : FsEntry
  | fileE (name : String) (info : Option Int) : FsEntry
deriving Repr, DecidableEq

/-- Accumulator of the entry loop in scanDirectory (streamer.go): the
files and subdir placeholders collected so far and the three counters. -/
structure ScanAcc where
  files : List FileInfo
  subdirs : List DirInfo
  fileCount : Int
  dirCount : Int
  totalBytes : Int
deriving Repr

/-- Placeholder DirInfo built for a directory entry in scanDirectory:
size 0, unloaded, empty files and subdirs, zero counts. -/
def placeholderFor (path : GoPath) (name : String) : DirInfo :=
  .mk (joinPath path name) 0 [] [] false false 0 0

/-- One iteration of the entry loop of scanDirectory (streamer.go): a
directory entry appends a placeholder and bumps dirCount; a non-directory
entry with readable metadata appends a FileInfo and bumps fileCount and
totalBytes; a non-directory entry with unreadable metadata is skipped. -/
def scanStep (path : GoPath) (acc : ScanAcc) (e : FsEntry) : ScanAcc :=
  match e with
  | .dirE n =>
    { acc with subdirs := acc.subdirs ++ [placeholderFor path n],
               dirCount := acc.dirCount + 1 }
  | .fileE n (some sz) =>
    { acc with files := acc.files ++ [FileInfo.mk n sz],
               fileCount := acc.fileCount + 1,
               totalBytes := acc.totalBytes + sz }
  | .fileE _ none => acc

/-- scanDirectory from internal/scanner/streamer.go, success path: fold
the entry loop over the listing and package the result as a
StreamingUpdate whose DirInfo carries the files, the subdirectory
placeholders, Size equal to the direct file byte total and IsLoaded true.
The cancellation check inside the loop is not taken (no claim concerns a
scan abandoned mid-listing). -/
def scanDirectoryOk (path : GoPath) (entries : List FsEntry) : StreamingUpdate :=
  let acc := entries.foldl (scanStep path) ⟨[], [], 0, 0, 0⟩
  { path := path
    fileCount := acc.fileCount
    dirCount := acc.dirCount
    totalSize := acc.totalBytes
    dirInfo := some (.mk path acc.totalBytes acc.files acc.subdirs true false
      acc.fileCount acc.dirCount)
    isComplete := false }

/-- Error value sent on the error channel by scanDirectory when
os.ReadDir fails: it carries the path and the underlying cause. -/
structure ScanError where
  path : GoPath
  cause : String
deriving Repr, DecidableEq

/-- Filesystem model for the worker loop: each path either lists to a
sequence of entries or fails with a cause. -/
abbrev FsListing : Type := GoPath → Except String (List FsEntry)

/-- scanDirectory from streamer.go over the filesystem model: on a
listing error nothing is returned (nil in Go) and the error carrying
path and cause is recorded for the error channel; on success the
StreamingUpdate is returned. -/
def scanDirectory (fs : FsListing) (path : GoPath) :
    Option StreamingUpdate × Option ScanError :=
  match fs path with
  | .error cause => (none, some ⟨path, cause⟩)
  | .ok entries => (some (scanDirectoryOk path entries), none)

/-- Observable output of a worker (streamer.go worker): the updates
published on the update channel, the errors forwarded on the error
channel, and the subdirectory paths re-enqueued via queueWork. -/
structure WorkerOut where
  updates : List StreamingUpdate
  errors : List ScanError
  queued : List GoPath

/-- Subdirectory paths of an update's snapshot, enqueued by the worker
after publishing the update. -/
def subdirPathsOf (u : StreamingUpdate) : List GoPath :=
  match u.dirInfo with
  | none => []
  | some di => di.subdirs.map DirInfo.path

/-- One worker iteration (streamer.go worker) on a received path: run
scanDirectory; if it returned nil, only the error side effect happens
and the loop continues; otherwise the update is published and every
discovered subdirectory path is enqueued. -/
def workerStep (fs : FsListing) (st : WorkerOut) (p : GoPath) : WorkerOut :=
  match scanDirectory fs p with
  | (none, some e) => { st with errors := st.errors ++ [e] }
  | (none, none) => st
  | (some u, _) =>
    { st with updates := st.updates ++ [u], queued := st.queued ++ subdirPathsOf u }

/-- Worker loop over a sequence of received paths, starting from empty
output.  The loop never exits early on a scan failure: it continues with
the next received path. -/
def workerRun (fs : FsListing) (ps : List GoPath) : WorkerOut :=
  ps.foldl (workerStep fs) ⟨[], [], []⟩

/-- Sample taken by monitorCompletion (streamer.go): length of the
unbounded input channel, length of the bounded work channel, and the
active-job counter. -/
structure MonitorSample where
  inputLen : Nat
  queueLen : Nat
  activeJobs : Int
deriving Repr, DecidableEq

/-- All three sampled quantities are zero. -/
def allZero (s : MonitorSample) : Bool :=
  s.inputLen == 0 && s.queueLen == 0 && s.activeJobs == 0

/-- Event observed by the monitor loop: either the cancellation token
fires (a ctx.Done arm of one of its selects is taken), or a ticker tick
fires, yielding the sample taken at the tick and the re-sample taken
after the 100ms debounce sleep. -/
inductive MonitorEvent : Type where
  | cancel : MonitorEvent
  | tick (sample resample : MonitorSample) : MonitorEvent
deriving Repr, DecidableEq

/-- Completion event published by the monitor: a StreamingUpdate with
IsComplete true and all other fields zero values. -/
def completionUpdate : StreamingUpdate :=
  { path := [], fileCount := 0, dirCount := 0, totalSize := 0,
    dirInfo := none, isComplete := true }

/-- monitorCompletion from streamer.go over a trace of events: on a
cancellation event the monitor returns without publishing anything; on a
tick whose sample and debounced re-sample are both all-zero it publishes
the completion update and returns; on any other tick it loops.  The
returned list is everything the monitor ever publishes on the update
channel. -/
def monitorCompletion : List MonitorEvent → List StreamingUpdate
  | [] => []
  | .cancel :: _ => []
  | .tick s r :: rest =>
    if allZero s && allZero r then [completionUpdate]
    else monitorCompletion rest

/-- Events of the shutdown protocol of streamer.go.  stopCancel is
s.cancel() inside Stop; workerExit is one worker goroutine returning
after observing cancellation; mgrCloseWorkQueue is manageUnboundedQueue
taking a ctx.Done select arm, which executes close(s.workQueue) and
returns; stopCloseChannels is Stop proceeding past workerGroup.Wait()
and executing close(s.workQueue), close(s.updateChan),
close(s.errorChan). -/
inductive ShutEvent : Type where
  | stopCancel : ShutEvent
  | workerExit : ShutEvent
  | mgrCloseWorkQueue : ShutEvent
  | stopCloseChannels : ShutEvent
deriving Repr, DecidableEq

/-- State of the shutdown protocol: whether cancellation was broadcast,
how many workers are still running, whether the queue manager has
observed cancellation (closing workQueue) and exited, and whether Stop
has performed its three closes. -/
structure ShutState where
  cancelled : Bool
  workersLeft : Nat
  mgrDone : Bool
  stopClosed : Bool
deriving Repr, DecidableEq

/-- One step of the shutdown protocol; none means the event cannot occur
in this state.  Workers and the queue manager can observe cancellation
only after it was broadcast; Stop closes the channels only after
cancelling and after workerGroup.Wait() saw every worker exit; each
participant acts at most once.  The queue manager is not part of
workerGroup, so stopCloseChannels does not wait for mgrCloseWorkQueue. -/
def shutStep (st : ShutState) : ShutEvent → Option ShutState
  | .stopCancel =>
    if st.cancelled then none else some { st with cancelled := true }
  | .workerExit =>
    if st.cancelled && st.workersLeft != 0 then
      some { st with workersLeft := st.workersLeft - 1 }
    else none
  | .mgrCloseWorkQueue =>
    if st.cancelled && !st.mgrDone then some { st with mgrDone := true } else none
  | .stopCloseChannels =>
    if st.cancelled && st.workersLeft == 0 && !st.stopClosed then
      some { st with stopClosed := true }
    else none

/-- Run the shutdown protocol over a trace of events from a given state. -/
def shutRun (st : ShutState) : List ShutEvent → Option ShutState
  | [] => some st
  | e :: es =>
    match shutStep st e with
    | none => none
    | some st' => shutRun st' es

/-- Initial shutdown state for a pipeline with n workers running. -/
def shutInit (n : Nat) : ShutState := ⟨false, n, false, false⟩

/-- A terminal shutdown state: every task has exited and Stop returned. -/
def shutComplete (st : ShutState) : Bool :=
  st.mgrDone && st.stopClosed && st.workersLeft == 0

/-- Number of times close(s.workQueue) executes in a trace: the queue
manager's ctx.Done arm closes it, and Stop closes it again. -/
def workQueueCloseCount (es : List ShutEvent) : Nat :=
  es.count ShutEvent.mgrCloseWorkQueue + es.count ShutEvent.stopCloseChannels

/-- Capacity of the workInput channel, make(chan string, 1000) in
NewStreamingScanner. -/
def workInputCap : Nat := 1000

/-- State of the pipeline relevant to queueWork: how many paths sit in
the workInput channel buffer, how many sit in the queue manager's
internal slice, and whether cancellation was signalled. -/
structure QueueState where
  inputBuffered : Nat
  managerSliceLen : Nat
  cancelled : Bool
deriving Repr, DecidableEq

/-- Whether the select in queueWork (streamer.go) has a ready arm, i.e.
whether the call returns without blocking: the send arm is ready exactly
when the workInput buffer is below capacity (the queue manager never
parks as a receiver on a nonempty buffered channel), and the ctx.Done arm
is ready exactly when cancellation was signalled. -/
def queueWorkReturnsNow (st : QueueState) : Bool :=
  st.inputBuffered < workInputCap || st.cancelled

mutual

/-- Filesystem model for internal/scanner/scanner.go: a directory either
lists to a sequence of entries or fails to list (os.ReadDir error). -/
inductive FsTree : Type where
  | mk (listing : Option (List FsDirEntry)) : FsTree

/-- Entry of a modelled directory: a non-directory entry whose metadata
is readable (some size) or not, or a subdirectory with its own tree. -/
inductive FsDirEntry : Type where
  | fileE (name : String) (info : Option Int) : FsDirEntry
  | dirE (name : String) (sub : FsTree) : FsDirEntry

end

mutual

/-- Byte total computed by scanDirectoryParallel (scanner.go) over a
listing: direct files whose metadata is readable plus the recursive size
of each subdirectory, an inaccessible subdirectory contributing 0.  The
Go code sums files first and collects directory results from a channel;
addition is commutative, so the entry-order sum used here is the same
total. -/
def fsEntriesSize : List FsDirEntry → Int
  | [] => 0
  | .fileE _ (some sz) :: es => sz + fsEntriesSize es
  | .fileE _ none :: es => fsEntriesSize es
  | .dirE _ sub :: es => fsSubSize sub + fsEntriesSize es

/-- Recursive size of one subtree; 0 if its listing fails, matching
`sizeChan <- 0 // Skip inaccessible directories`. -/
def fsSubSize : FsTree → Int
  | .mk none => 0
  | .mk (some es) => fsEntriesSize es

end

/-- Number of non-directory entries in a listing (scanner.go counts all
of them in FileCount, readable metadata or not). -/
def countFileEntries : List FsDirEntry → Int
  | [] => 0
  | .fileE _ _ :: es => 1 + countFileEntries es
  | .dirE _ _ :: es => countFileEntries es

/-- Number of directory entries in a listing. -/
def countDirEntries : List FsDirEntry → Int
  | [] => 0
  | .fileE _ _ :: es => countDirEntries es
  | .dirE _ _ :: es => 1 + countDirEntries es

/-- scanDirectoryParallel from scanner.go: on a listing failure the
error propagates (none); otherwise it returns a DirInfo with the
recursive byte total, empty Files and Subdirs, IsLoaded false and the
direct-entry counts. -/
def scanDirectoryParallel (path : GoPath) (t : FsTree) : Option DirInfo :=
  match t with
  | .mk none => none
  | .mk (some es) =>
    some (.mk path (fsEntriesSize es) [] [] false false
      (countFileEntries es) (countDirEntries es))

/-- ScanDirectoryLazy from scanner.go delegates to scanDirectoryParallel
(the worker-pool parallelism only affects scheduling, not the result). -/
def ScanDirectoryLazy (path : GoPath) (t : FsTree) : Option DirInfo :=
  scanDirectoryParallel path t

/-- File entries collected by LoadDirectoryContents: non-directory
entries whose metadata is readable, in listing order. -/
def loadFilesFromEntries : List FsDirEntry → List FileInfo
  | [] => []
  | .fileE n (some sz) :: es => FileInfo.mk n sz :: loadFilesFromEntries es
  | .fileE _ none :: es => loadFilesFromEntries es
  | .dirE _ _ :: es => loadFilesFromEntries es

/-- Subdirectory nodes built by LoadDirectoryContents: one
ScanDirectoryLazy result per directory entry, entries whose scan fails
being skipped.  The Go code fills this list from concurrent goroutines,
so its order is scheduler-dependent; listing order is one admissible
order and no claim concerns the order. -/
def loadSubdirsFromEntries (parent : GoPath) : List FsDirEntry → List DirInfo
  | [] => []
  | .fileE _ _ :: es => loadSubdirsFromEntries parent es
  | .dirE n sub :: es =>
    match ScanDirectoryLazy (joinPath parent n) sub with
    | none => loadSubdirsFromEntries parent es
    | some d => d :: loadSubdirsFromEntries parent es

/-- LoadDirectoryContents from scanner.go acting on a node backed by the
given subtree.  Result: the node after the call, and the returned error
if any.  A node already loaded or loading is returned unchanged with no
error.  On a listing failure the error is returned and the node is
unchanged (IsLoading was set to true and restored to false by the defer;
Files and Subdirs are cleared only after a successful listing).  On
success Files, Subdirs and IsLoaded are written; Size, FileCount and
SubdirCount are not. -/
def LoadDirectoryContents (t : FsTree) (d : DirInfo) : DirInfo × Option String :=
  if d.isLoaded || d.isLoading then (d, none)
  else
    match t with
    | .mk none => (d, some "failed to read directory")
    | .mk (some es) =>
      (.mk d.path d.size (loadFilesFromEntries es)
        (loadSubdirsFromEntries d.path es) true false d.fileCount d.subdirCount,
       none)

mutual

/-- Size invariant of the spec: every node's Size equals the sum of its
direct file sizes plus the Size of every child. -/
def sizeOk : DirInfo → Bool
  | .mk _ s fs sds _ _ _ _ =>
    (s == sumFileSizes fs + sumSubdirSizes sds) && sizeOkList sds

/-- Size invariant for every tree in a list. -/
def sizeOkList : List DirInfo → Bool
  | [] => true
  | d :: ds => sizeOk d && sizeOkList ds

end

/-- No two trees in the list share a root path. -/
def nodupPaths : List DirInfo → Bool
  | [] => true
  | d :: ds => ds.all (fun c => !(c.path == d.path)) && nodupPaths ds

/-- Shape of a child path under a parent path: exactly one segment is
appended (filepath.Join of the parent path and the entry name). -/
def childShape (p : GoPath) (c : DirInfo) : Bool :=
  (dirOf c.path == p) && !c.path.isEmpty

mutual

/-- Structural well-formedness of a tree as built by the scanner: every
child's path extends its parent's path by exactly one segment, and no
two children of a node share a path. -/
def wfOk : DirInfo → Bool
  | .mk p _ _ sds _ _ _ _ =>
    sds.all (childShape p) && nodupPaths sds && wfOkList sds

/-- Structural well-formedness for every tree in a list. -/
def wfOkList : List DirInfo → Bool
  | [] => true
  | d :: ds => wfOk d && wfOkList ds

end

/-- Well-formedness of a streamed snapshot as integrated into the tree:
it satisfies the size invariant and the structural invariant. -/
def snapshotOk (di : DirInfo) : Bool := sizeOk di && wfOk di

/-- The claim's precondition for integrating a non-root update: the
parent of the update's path is present in the tree and holds a matching
placeholder child (Size 0, not loaded). -/
def placeholderReady (t : DirInfo) (di : DirInfo) : Prop :=
  ∃ parent, findDirectoryInTree t (dirOf di.path) = some parent ∧
    ∃ c ∈ parent.subdirs, c.path = di.path ∧ c.size = 0 ∧ c.isLoaded = false

/-- Apply g to the first tree in the list whose root path is q. -/
def mapFirstNamed (q : GoPath) (g : DirInfo → DirInfo) : List DirInfo → List DirInfo
  | [] => []
  | c :: cs => if c.path = q then g c :: cs else c :: mapFirstNamed q g cs

/-- Fused form of updateAt-at-a-descendant followed by one of the
upward size walks: descend along the named-child spine given by the
relative segments r, apply gpar to the node at the end of the spine, and
apply post to every spine node on the way back up (post is the walk's
per-node action, applied bottom-up exactly as the deepest-first walk
does).  Used only to restructure proofs; the executable operations above
are the model of the Go code. -/
def spineApply (post gpar : DirInfo → DirInfo) : DirInfo → List String → DirInfo
  | t, [] => post (gpar t)
  | t, n :: r =>
    post (t.withSubdirs
      (mapFirstNamed (joinPath t.path n) (fun c => spineApply post gpar c r) t.subdirs))

/-- Conditions under which the UI handler processes a batch of streamed
snapshots, following the claim: each update is either the root update
(its path equals the model's currentPath, replacing the root wholesale)
or a non-root update whose matching placeholder child is present, and
every snapshot is well-formed as produced by the single-level scanner. -/
inductive GoodBatch (currentPath : GoPath) : DirInfo → List DirInfo → Prop where
  | nil (t : DirInfo) : GoodBatch currentPath t []
  | consRoot (t di : DirInfo) (rest : List DirInfo) :
      di.path = currentPath → snapshotOk di = true →
      GoodBatch currentPath di rest → GoodBatch currentPath t (di :: rest)
  | consChild (t di : DirInfo) (rest : List DirInfo) :
      di.path ≠ currentPath → snapshotOk di = true →
      placeholderReady t di →
      GoodBatch currentPath (integrateDirectoryIntoTree t di) rest →
      GoodBatch currentPath t (di :: rest)

/-- Process a batch of snapshots in arrival order through the UI
handler. -/
def batchProcess (currentPath : GoPath) (t : DirInfo) (dis : List DirInfo) : DirInfo :=
  dis.foldl (processUpdate currentPath) t

/-- Specification-side restatement for claim C2: byte total of the
direct non-directory entries whose metadata could be read. -/
def specReadableTotal : List FsEntry → Int
  | [] => 0
  | .fileE _ (some sz) :: es => sz + specReadableTotal es
  | .fileE _ none :: es => specReadableTotal es
  | .dirE _ :: es => specReadableTotal es

/-- Specification-side restatement for claim C2: number of direct
non-directory entries whose metadata could be read. -/
def specReadableFileCount : List FsEntry → Int
  | [] => 0
  | .fileE _ (some _) :: es => 1 + specReadableFileCount es
  | .fileE _ none :: es => specReadableFileCount es
  | .dirE _ :: es => specReadableFileCount es

/-- Specification-side restatement for claim C2: number of direct
subdirectory entries. -/
def specDirCount : List FsEntry → Int
  | [] => 0
  | .fileE _ _ :: es => specDirCount es
  | .dirE _ :: es => 1 + specDirCount es

/-- Specification-side restatement for claim C2: the placeholder nodes a
scan of the given listing creates, one per directory entry in order. -/
def specPlaceholders (path : GoPath) : List FsEntry → List DirInfo
  | [] => []
  | .fileE _ _ :: es => specPlaceholders path es
  | .dirE n :: es => placeholderFor path n :: specPlaceholders path es

/-- Listing of the C2 scenario: two files of 100 and 50 bytes and one
empty subdirectory. -/
def c2Listing : List FsEntry :=
  [.fileE "a" (some 100), .fileE "b" (some 50), .dirE "sub"]

/-- Initial root of NewStreamingModel for a scan rooted at "." (the
default -path value), whose segment list is empty. -/
def c1root0 : DirInfo := .mk [] 0 [] [] false true 0 0

/-- Root snapshot of the "."-rooted scan: no direct files, one
placeholder child "sub". -/
def c1rootSnap : DirInfo := .mk [] 0 [] [.mk ["sub"] 0 [] [] false false 0 0] true false 0 1

/-- Snapshot of the subdirectory "sub": one file of 100 bytes. -/
def c1subSnap : DirInfo := .mk ["sub"] 100 [.mk "f" 100] [] true false 1 0

/-- Tree for the C3 replay scenario: a root at path r holding one
placeholder child r/a. -/
def c3root : DirInfo := .mk ["r"] 0 [] [.mk ["r", "a"] 0 [] [] false false 0 0] true false 0 1

/-- Snapshot replayed in the C3 scenario: r/a with one 100-byte file. -/
def c3snap : DirInfo := .mk ["r", "a"] 100 [.mk "f" 100] [] true false 1 0

/-- Shutdown trace for one worker: Stop cancels, the queue manager
observes cancellation and closes workQueue, the worker exits, and Stop
proceeds past Wait and closes workQueue again together with updateChan
and errorChan. -/
def shutDemoTrace : List ShutEvent :=
  [.stopCancel, .mgrCloseWorkQueue, .workerExit, .stopCloseChannels]

/-- Tree for the C8 deletion scenario: a root r of size 2000 holding a
1500-byte file and one loaded 500-byte subdirectory r/s. -/
def c8root : DirInfo :=
  .mk ["r"] 2000 [.mk "big" 1500]
    [.mk ["r", "s"] 500 [.mk "x" 500] [] true false 1 0] true false 1 1

/-- Tree for the C8 counterexample: a scan rooted at "." (empty segment
list) whose child a (size 600) holds a 100-byte file and a loaded
500-byte subdirectory a/b. -/
def c8badRoot : DirInfo :=
  .mk [] 600 []
    [.mk ["a"] 600 [.mk "f" 100]
      [.mk ["a", "b"] 500 [.mk "g" 500] [] true false 1 0] true false 1 1]
    true false 0 1

@[simp] theorem DirInfo.path_mk (p s fs sds ld lg fc sc) :
    (DirInfo.mk p s fs sds ld lg fc sc).path = p := rfl

@[simp] theorem DirInfo.size_mk (p s fs sds ld lg fc sc) :
    (DirInfo.mk p s fs sds ld lg fc sc).size = s := rfl

@[simp] theorem DirInfo.files_mk (p s fs sds ld lg fc sc) :
    (DirInfo.mk p s fs sds ld lg fc sc).files = fs := rfl

@[simp] theorem DirInfo.subdirs_mk (p s fs sds ld lg fc sc) :
    (DirInfo.mk p s fs sds ld lg fc sc).subdirs = sds := rfl

@[simp] theorem DirInfo.isLoaded_mk (p s fs sds ld lg fc sc) :
    (DirInfo.mk p s fs sds ld lg fc sc).isLoaded = ld := rfl

@[simp] theorem DirInfo.isLoading_mk (p s fs sds ld lg fc sc) :
    (DirInfo.mk p s fs sds ld lg fc sc).isLoading = lg := rfl

@[simp] theorem DirInfo.fileCount_mk (p s fs sds ld lg fc sc) :
    (DirInfo.mk p s fs sds ld lg fc sc).fileCount = fc := rfl

@[simp] theorem DirInfo.subdirCount_mk (p s fs sds ld lg fc sc) :
    (DirInfo.mk p s fs sds ld lg fc sc).subdirCount = sc := rfl

theorem DirInfo.eta (d : DirInfo) :
    DirInfo.mk d.path d.size d.files d.subdirs d.isLoaded d.isLoading
      d.fileCount d.subdirCount = d := by
  cases d
  rfl

@[simp] theorem DirInfo.withSize_path (d : DirInfo) (s : Int) :
    (d.withSize s).path = d.path := by cases d; rfl

@[simp] theorem DirInfo.withSize_size (d : DirInfo) (s : Int) :
    (d.withSize s).size = s := by cases d; rfl

@[simp] theorem DirInfo.withSize_files (d : DirInfo) (s : Int) :
    (d.withSize s).files = d.files := by cases d; rfl

@[simp] theorem DirInfo.withSize_subdirs (d : DirInfo) (s : Int) :
    (d.withSize s).subdirs = d.subdirs := by cases d; rfl

@[simp] theorem DirInfo.withSize_fileCount (d : DirInfo) (s : Int) :
    (d.withSize s).fileCount = d.fileCount := by cases d; rfl

@[simp] theorem DirInfo.withSize_subdirCount (d : DirInfo) (s : Int) :
    (d.withSize s).subdirCount = d.subdirCount := by cases d; rfl

@[simp] theorem DirInfo.withSubdirs_path (d : DirInfo) (l : List DirInfo) :
    (d.withSubdirs l).path = d.path := by cases d; rfl

@[simp] theorem DirInfo.withSubdirs_size (d : DirInfo) (l : List DirInfo) :
    (d.withSubdirs l).size = d.size := by cases d; rfl

@[simp] theorem DirInfo.withSubdirs_files (d : DirInfo) (l : List DirInfo) :
    (d.withSubdirs l).files = d.files := by cases d; rfl

@[simp] theorem DirInfo.withSubdirs_subdirs (d : DirInfo) (l : List DirInfo) :
    (d.withSubdirs l).subdirs = l := by cases d; rfl

theorem findDirectoryInTree_def (t : DirInfo) (q : GoPath) :
    findDirectoryInTree t q =
      if t.path = q then some t else findInSubdirs t.subdirs q := by
  cases t
  rfl

theorem updateAt_def (t : DirInfo) (q : GoPath) (f : DirInfo → DirInfo) :
    updateAt t q f =
      if t.path = q then f t
      else t.withSubdirs (updateAtList t.subdirs q f) := by
  cases t
  rfl

mutual

theorem find_path_eq : ∀ (t : DirInfo) (q : GoPath) (d : DirInfo),
    findDirectoryInTree t q = some d → d.path = q
  | .mk p s fs sds ld lg fc sc, q, d, h => by
    rw [findDirectoryInTree] at h
    split at h
    · next heq =>
      cases h
      simpa using heq
    · exact findList_path_eq sds q d h

theorem findList_path_eq : ∀ (l : List DirInfo) (q : GoPath) (d : DirInfo),
    findInSubdirs l q = some d → d.path = q
  | [], _, _, h => by simp [findInSubdirs] at h
  | c :: cs, q, d, h => by
    rw [findInSubdirs] at h
    cases hc : findDirectoryInTree c q with
    | some r =>
      rw [hc] at h
      cases h
      exact find_path_eq c q d hc
    | none =>
      rw [hc] at h
      exact findList_path_eq cs q d h

end

theorem scanFold_totalBytes (path : GoPath) (es : List FsEntry) :
    ∀ a : ScanAcc, (es.foldl (scanStep path) a).totalBytes
      = a.totalBytes + specReadableTotal es := by
  induction es with
  | nil => intro a; simp [specReadableTotal]
  | cons e es ih =>
    intro a
    cases e with
    | dirE n => simp [scanStep, specReadableTotal, ih]
    | fileE n info =>
      cases info with
      | none => simp [scanStep, specReadableTotal, ih]
      | some sz =>
        simp [scanStep, specReadableTotal, ih]
        ring

theorem scanFold_fileCount (path : GoPath) (es : List FsEntry) :
    ∀ a : ScanAcc, (es.foldl (scanStep path) a).fileCount
      = a.fileCount + specReadableFileCount es := by
  induction es with
  | nil => intro a; simp [specReadableFileCount]
  | cons e es ih =>
    intro a
    cases e with
    | dirE n => simp [scanStep, specReadableFileCount, ih]
    | fileE n info =>
      cases info with
      | none => simp [scanStep, specReadableFileCount, ih]
      | some sz =>
        simp [scanStep, specReadableFileCount, ih]
        ring

theorem scanFold_dirCount (path : GoPath) (es : List FsEntry) :
    ∀ a : ScanAcc, (es.foldl (scanStep path) a).dirCount
      = a.dirCount + specDirCount es := by
  induction es with
  | nil => intro a; simp [specDirCount]
  | cons e es ih =>
    intro a
    cases e with
    | dirE n =>
      simp [scanStep, specDirCount, ih]
      ring
    | fileE n info =>
      cases info with
      | none => simp [scanStep, specDirCount, ih]
      | some sz => simp [scanStep, specDirCount, ih]

theorem scanFold_subdirs (path : GoPath) (es : List FsEntry) :
    ∀ a : ScanAcc, (es.foldl (scanStep path) a).subdirs
      = a.subdirs ++ specPlaceholders path es := by
  induction es with
  | nil => intro a; simp [specPlaceholders]
  | cons e es ih =>
    intro a
    cases e with
    | dirE n => simp [scanStep, specPlaceholders, ih]
    | fileE n info =>
      cases info with
      | none => simp [scanStep, specPlaceholders, ih]
      | some sz => simp [scanStep, specPlaceholders, ih]

theorem mem_specPlaceholders (path : GoPath) (es : List FsEntry) :
    ∀ c ∈ specPlaceholders path es,
      c.size = 0 ∧ c.isLoaded = false ∧ c.files = [] ∧ c.subdirs = [] := by
  induction es with
  | nil => simp [specPlaceholders]
  | cons e es ih =>
    cases e with
    | fileE n info => simpa [specPlaceholders] using ih
    | dirE n =>
      intro c hc
      rw [specPlaceholders] at hc
      rcases List.mem_cons.mp hc with h | h
      · subst h
        exact ⟨rfl, rfl, rfl, rfl⟩
      · exact ih c h

/-- Claim C2: for every directory path whose listing succeeds,
scanDirectory returns a StreamingUpdate (and no error) in which
TotalSize is the byte total of the direct non-directory entries whose
metadata could be read, FileCount and DirCount count those files and the
direct subdirectory entries, and every snapshot subdirectory is an
unexpanded placeholder of Size 0, IsLoaded false, with empty Files and
Subdirs; a root with files of 100 and 50 bytes and one empty
subdirectory yields FileCount 2, DirCount 1, TotalSize 150. -/
theorem scanDirectory_single_level_correct :
    (∀ (fs : FsListing) (path : GoPath) (entries : List FsEntry),
      fs path = .ok entries →
      ∃ u, scanDirectory fs path = (some u, none) ∧
        u.totalSize = specReadableTotal entries ∧
        u.fileCount = specReadableFileCount entries ∧
        u.dirCount = specDirCount entries ∧
        ∃ di, u.dirInfo = some di ∧
          di.subdirs = specPlaceholders path entries ∧
          ∀ c ∈ di.subdirs,
            c.size = 0 ∧ c.isLoaded = false ∧ c.files = [] ∧ c.subdirs = []) ∧
    ((scanDirectoryOk ["root"] c2Listing).fileCount = 2 ∧
     (scanDirectoryOk ["root"] c2Listing).dirCount = 1 ∧
     (scanDirectoryOk ["root"] c2Listing).totalSize = 150) := by
  constructor
  · intro fs path entries h
    refine ⟨scanDirectoryOk path entries, ?_, ?_, ?_, ?_, ?_⟩
    · simp [scanDirectory, h]
    · simpa [scanDirectoryOk] using scanFold_totalBytes path entries ⟨[], [], 0, 0, 0⟩
    · simpa [scanDirectoryOk] using scanFold_fileCount path entries ⟨[], [], 0, 0, 0⟩
    · simpa [scanDirectoryOk] using scanFold_dirCount path entries ⟨[], [], 0, 0, 0⟩
    · refine ⟨_, rfl, ?_, ?_⟩
      · simpa [scanDirectoryOk] using scanFold_subdirs path entries ⟨[], [], 0, 0, 0⟩
      · intro c hc
        apply mem_specPlaceholders path entries
        have h2 := scanFold_subdirs path entries ⟨[], [], 0, 0, 0⟩
        simp [scanDirectoryOk] at hc
        rw [h2] at hc
        simpa using hc
  · refine ⟨by decide, by decide, by decide⟩

/-- Witness for claim C2 at the concrete scenario listing. -/
theorem scanDirectory_single_level_correct_witness :
    ∃ u, scanDirectory (fun _ => Except.ok c2Listing) ["root"] = (some u, none) ∧
      u.totalSize = specReadableTotal c2Listing ∧
      u.fileCount = specReadableFileCount c2Listing ∧
      u.dirCount = specDirCount c2Listing ∧
      ∃ di, u.dirInfo = some di ∧
        di.subdirs = specPlaceholders ["root"] c2Listing ∧
        ∀ c ∈ di.subdirs,
          c.size = 0 ∧ c.isLoaded = false ∧ c.files = [] ∧ c.subdirs = [] :=
  scanDirectory_single_level_correct.1 (fun _ => Except.ok c2Listing) ["root"] c2Listing rfl

theorem workerStep_fields (fs : FsListing) (st : WorkerOut) (p : GoPath) :
    workerStep fs st p =
      ⟨st.updates ++ (workerStep fs ⟨[], [], []⟩ p).updates,
       st.errors ++ (workerStep fs ⟨[], [], []⟩ p).errors,
       st.queued ++ (workerStep fs ⟨[], [], []⟩ p).queued⟩ := by
  rcases h : scanDirectory fs p with ⟨ou, oe⟩
  cases ou with
  | none =>
    cases oe with
    | none => simp [workerStep, h]
    | some e => simp [workerStep, h]
  | some u => simp [workerStep, h]

theorem workerFold_from_state (fs : FsListing) (ps : List GoPath) :
    ∀ st : WorkerOut, ps.foldl (workerStep fs) st =
      ⟨st.updates ++ (workerRun fs ps).updates,
       st.errors ++ (workerRun fs ps).errors,
       st.queued ++ (workerRun fs ps).queued⟩ := by
  induction ps with
  | nil => intro st; simp [workerRun]
  | cons p ps ih =>
    intro st
    have h2 : workerRun fs (p :: ps) =
        ⟨(workerStep fs ⟨[], [], []⟩ p).updates ++ (workerRun fs ps).updates,
         (workerStep fs ⟨[], [], []⟩ p).errors ++ (workerRun fs ps).errors,
         (workerStep fs ⟨[], [], []⟩ p).queued ++ (workerRun fs ps).queued⟩ := by
      show (p :: ps).foldl (workerStep fs) ⟨[], [], []⟩ = _
      rw [List.foldl_cons, ih (workerStep fs ⟨[], [], []⟩ p)]
    rw [List.foldl_cons, ih (workerStep fs st p), h2, workerStep_fields fs st p]
    simp

/-- Claim C7: a path whose listing fails produces no update (the scan
returns nil), forwards an error carrying the path and the cause, and
aborts nothing: the updates of a worker run containing the failing path
are exactly those of the runs on the paths before and after it, and the
error stream contains the failure in between. -/
theorem worker_read_error_containment :
    ∀ (fs : FsListing) (xs ys : List GoPath) (b : GoPath) (cause : String),
      fs b = .error cause →
      scanDirectory fs b = (none, some ⟨b, cause⟩) ∧
      (workerRun fs (xs ++ b :: ys)).updates
        = (workerRun fs xs).updates ++ (workerRun fs ys).updates ∧
      (workerRun fs (xs ++ b :: ys)).errors
        = (workerRun fs xs).errors ++ ⟨b, cause⟩ :: (workerRun fs ys).errors := by
  intro fs xs ys b cause hb
  have hscan : scanDirectory fs b = (none, some ⟨b, cause⟩) := by
    simp [scanDirectory, hb]
  have hrun : workerRun fs (xs ++ b :: ys) =
      ⟨(workerRun fs xs).updates ++ (workerRun fs ys).updates,
       (workerRun fs xs).errors ++ ⟨b, cause⟩ :: (workerRun fs ys).errors,
       (workerRun fs xs).queued ++ (workerRun fs ys).queued⟩ := by
    show (xs ++ b :: ys).foldl (workerStep fs) ⟨[], [], []⟩ = _
    rw [List.foldl_append, List.foldl_cons]
    rw [show xs.foldl (workerStep fs) ⟨[], [], []⟩ = workerRun fs xs from rfl]
    rw [workerFold_from_state fs ys]
    simp [workerStep, hscan]
  exact ⟨hscan, by rw [hrun], by rw [hrun]⟩

/-- Witness for claim C7: one readable path before and after one
unreadable path. -/
theorem worker_read_error_containment_witness :
    (fun (fs : FsListing) =>
      scanDirectory fs ["bad"] = (none, some ⟨["bad"], "denied"⟩) ∧
      (workerRun fs ([["x"]] ++ ["bad"] :: [["y"]])).updates
        = (workerRun fs [["x"]]).updates ++ (workerRun fs [["y"]]).updates ∧
      (workerRun fs ([["x"]] ++ ["bad"] :: [["y"]])).errors
        = (workerRun fs [["x"]]).errors
            ++ ⟨["bad"], "denied"⟩ :: (workerRun fs [["y"]]).errors)
    (fun p => if p = ["bad"] then .error "denied" else .ok []) :=
  worker_read_error_containment
    (fun p => if p = ["bad"] then .error "denied" else .ok [])
    [["x"]] [["y"]] ["bad"] "denied" (by simp)

/-- Claim C4: the completion monitor publishes at most one update, any
published update is the IsComplete sentinel and is published only when
some tick sampled all three depths at zero and the debounced re-sample
was still all zero; and on a trace that reaches cancellation before any
such tick, nothing is ever published. -/
theorem monitorCompletion_correct :
    ∀ evs : List MonitorEvent,
      (monitorCompletion evs).length ≤ 1 ∧
      (∀ u ∈ monitorCompletion evs, u = completionUpdate ∧ u.isComplete = true ∧
        ∃ s r, MonitorEvent.tick s r ∈ evs ∧ allZero s = true ∧ allZero r = true) ∧
      (∀ pre rest, evs = pre ++ MonitorEvent.cancel :: rest →
        (∀ s r, MonitorEvent.tick s r ∈ pre → (allZero s && allZero r) = false) →
        monitorCompletion evs = []) := by
  intro evs
  induction evs with
  | nil =>
    refine ⟨by simp [monitorCompletion], by simp [monitorCompletion], ?_⟩
    intro pre rest h _
    exact absurd h (by simp)
  | cons e evs ih =>
    cases e with
    | cancel =>
      refine ⟨by simp [monitorCompletion], by simp [monitorCompletion], ?_⟩
      intro pre rest _ _
      simp [monitorCompletion]
    | tick s r =>
      by_cases hz : (allZero s && allZero r) = true
      · refine ⟨?_, ?_, ?_⟩
        · simp [monitorCompletion, hz]
        · intro u hu
          rw [monitorCompletion, if_pos hz] at hu
          rcases List.mem_singleton.mp hu with rfl
          rcases (Bool.and_eq_true _ _).mp hz with ⟨h1, h2⟩
          exact ⟨rfl, rfl, s, r, List.mem_cons_self _ _, h1, h2⟩
        · intro pre rest hsplit hnone
          cases pre with
          | nil => simp at hsplit
          | cons e0 pre =>
            rw [List.cons_append] at hsplit
            cases hsplit
            exact absurd hz (by simpa using hnone s r (List.mem_cons_self _ _))
      · have hz' : (allZero s && allZero r) = false := by
          cases h : allZero s && allZero r
          · rfl
          · exact absurd h hz
        have hm : monitorCompletion (MonitorEvent.tick s r :: evs)
            = monitorCompletion evs := by
          rw [monitorCompletion, if_neg]
          exact fun h => hz h
        refine ⟨by rw [hm]; exact ih.1, ?_, ?_⟩
        · intro u hu
          rw [hm] at hu
          obtain ⟨h1, h2, s', r', hmem, h3, h4⟩ := ih.2.1 u hu
          exact ⟨h1, h2, s', r', List.mem_cons_of_mem _ hmem, h3, h4⟩
        · intro pre rest hsplit hnone
          cases pre with
          | nil => simp at hsplit
          | cons e0 pre =>
            rw [List.cons_append] at hsplit
            obtain ⟨rfl, htl⟩ := List.cons_eq_cons.mp hsplit
            rw [hm]
            refine ih.2.2 pre rest htl ?_
            intro s' r' hmem
            exact hnone s' r' (List.mem_cons_of_mem _ hmem)

/-- Witness for claim C4: the cancelled-before-completion conjunct at
the one-event trace consisting of a cancellation. -/
theorem monitorCompletion_correct_witness :
    monitorCompletion [MonitorEvent.cancel] = [] :=
  (monitorCompletion_correct [MonitorEvent.cancel]).2.2 [] [] rfl (by simp)

/-- Claim C6 counterexample: a pipeline state that is not cancelled in
which 1000 enqueued paths fill the workInput buffer; neither arm of the
select in queueWork is ready, so the caller blocks. -/
theorem queueWork_blocks_on_full_buffer :
    (QueueState.mk workInputCap 0 false).cancelled = false ∧
    queueWorkReturnsNow (QueueState.mk workInputCap 0 false) = false := by
  exact ⟨rfl, rfl⟩

/-- Claim C6 amended: queueWork returns without blocking whenever the
workInput channel buffer is below its capacity of 1000 (or cancellation
has been signalled), regardless of how many paths are pending in the
queue manager's internal slice. -/
theorem queueWork_nonblocking_below_capacity :
    ∀ (n slice : Nat) (c : Bool), n < workInputCap →
      queueWorkReturnsNow (QueueState.mk n slice c) = true := by
  intro n slice c h
  simp [queueWorkReturnsNow, h]

/-- Witness for the amended claim C6: an empty buffer with a million
paths pending in the manager's slice, not cancelled. -/
theorem queueWork_nonblocking_below_capacity_witness :
    queueWorkReturnsNow (QueueState.mk 0 1000000 false) = true :=
  queueWork_nonblocking_below_capacity 0 1000000 false (by norm_num [workInputCap])

theorem shutRun_mgr_stays_done :
    ∀ (es : List ShutEvent) (st0 st : ShutState), shutRun st0 es = some st →
      st0.mgrDone = true →
      st.mgrDone = true ∧ es.count ShutEvent.mgrCloseWorkQueue = 0 := by
  intro es
  induction es with
  | nil =>
    intro st0 st h hdone
    rw [shutRun] at h
    cases h
    exact ⟨hdone, rfl⟩
  | cons e es ih =>
    intro st0 st h hdone
    rw [shutRun] at h
    cases he : shutStep st0 e with
    | none => rw [he] at h; cases h
    | some st1 =>
      rw [he] at h
      have h1 : st1.mgrDone = true := by
        cases e with
        | stopCancel =>
          rw [shutStep] at he
          split at he
          · cases he
          · cases he; exact hdone
        | workerExit =>
          rw [shutStep] at he
          split at he
          · cases he; exact hdone
          · cases he
        | mgrCloseWorkQueue =>
          rw [shutStep] at he
          split at he
          · cases he; rfl
          · cases he
        | stopCloseChannels =>
          rw [shutStep] at he
          split at he
          · cases he; exact hdone
          · cases he
      obtain ⟨h2, h3⟩ := ih st1 st h h1
      refine ⟨h2, ?_⟩
      cases e with
      | stopCancel => simpa [List.count_cons] using h3
      | workerExit => simpa [List.count_cons] using h3
      | mgrCloseWorkQueue =>
        rw [shutStep] at he
        split at he
        · next hc =>
          rw [Bool.and_eq_true] at hc
          rw [hdone] at hc
          simp at hc
        · cases he
      | stopCloseChannels => simpa [List.count_cons] using h3

theorem shutRun_mgr_count :
    ∀ (es : List ShutEvent) (st0 st : ShutState), shutRun st0 es = some st →
      st0.mgrDone = false →
      es.count ShutEvent.mgrCloseWorkQueue = (if st.mgrDone then 1 else 0) := by
  intro es
  induction es with
  | nil =>
    intro st0 st h hdone
    rw [shutRun] at h
    cases h
    rw [hdone]
    rfl
  | cons e es ih =>
    intro st0 st h hdone
    rw [shutRun] at h
    cases he : shutStep st0 e with
    | none => rw [he] at h; cases h
    | some st1 =>
      rw [he] at h
      cases e with
      | stopCancel =>
        rw [shutStep] at he
        split at he
        · cases he
        · cases he
          simpa [List.count_cons] using ih _ st h hdone
      | workerExit =>
        rw [shutStep] at he
        split at he
        · cases he
          simpa [List.count_cons] using ih _ st h hdone
        · cases he
      | mgrCloseWorkQueue =>
        rw [shutStep] at he
        split at he
        · cases he
          obtain ⟨h2, h3⟩ := shutRun_mgr_stays_done es _ st h rfl
          rw [h2]
          simpa [List.count_cons] using h3
        · cases he
      | stopCloseChannels =>
        rw [shutStep] at he
        split at he
        · cases he
          simpa [List.count_cons] using ih _ st h hdone
        · cases he

theorem shutRun_stop_stays_closed :
    ∀ (es : List ShutEvent) (st0 st : ShutState), shutRun st0 es = some st →
      st0.stopClosed = true →
      st.stopClosed = true ∧ es.count ShutEvent.stopCloseChannels = 0 := by
  intro es
  induction es with
  | nil =>
    intro st0 st h hdone
    rw [shutRun] at h
    cases h
    exact ⟨hdone, rfl⟩
  | cons e es ih =>
    intro st0 st h hdone
    rw [shutRun] at h
    cases he : shutStep st0 e with
    | none => rw [he] at h; cases h
    | some st1 =>
      rw [he] at h
      have h1 : st1.stopClosed = true := by
        cases e with
        | stopCancel =>
          rw [shutStep] at he
          split at he
          · cases he
          · cases he; exact hdone
        | workerExit =>
          rw [shutStep] at he
          split at he
          · cases he; exact hdone
          · cases he
        | mgrCloseWorkQueue =>
          rw [shutStep] at he
          split at he
          · cases he; exact hdone
          · cases he
        | stopCloseChannels =>
          rw [shutStep] at he
          split at he
          · cases he; rfl
          · cases he
      obtain ⟨h2, h3⟩ := ih st1 st h h1
      refine ⟨h2, ?_⟩
      cases e with
      | stopCancel => simpa [List.count_cons] using h3
      | workerExit => simpa [List.count_cons] using h3
      | mgrCloseWorkQueue => simpa [List.count_cons] using h3
      | stopCloseChannels =>
        rw [shutStep] at he
        split at he
        · next hc =>
          simp only [Bool.and_eq_true] at hc
          rw [hdone] at hc
          simp at hc
        · cases he

theorem shutRun_stop_count :
    ∀ (es : List ShutEvent) (st0 st : ShutState), shutRun st0 es = some st →
      st0.stopClosed = false →
      es.count ShutEvent.stopCloseChannels = (if st.stopClosed then 1 else 0) := by
  intro es
  induction es with
  | nil =>
    intro st0 st h hdone
    rw [shutRun] at h
    cases h
    rw [hdone]
    rfl
  | cons e es ih =>
    intro st0 st h hdone
    rw [shutRun] at h
    cases he : shutStep st0 e with
    | none => rw [he] at h; cases h
    | some st1 =>
      rw [he] at h
      cases e with
      | stopCancel =>
        rw [shutStep] at he
        split at he
        · cases he
        · cases he
          simpa [List.count_cons] using ih _ st h hdone
      | workerExit =>
        rw [shutStep] at he
        split at he
        · cases he
          simpa [List.count_cons] using ih _ st h hdone
        · cases he
      | mgrCloseWorkQueue =>
        rw [shutStep] at he
        split at he
        · cases he
          simpa [List.count_cons] using ih _ st h hdone
        · cases he
      | stopCloseChannels =>
        rw [shutStep] at he
        split at he
        · cases he
          obtain ⟨h2, h3⟩ := shutRun_stop_stays_closed es _ st h rfl
          rw [h2]
          simpa [List.count_cons] using h3
        · cases he

/-- Claim C5 refuted by the code: in the demonstration schedule the
queue manager observes cancellation and closes workQueue, every worker
exits, and Stop then closes workQueue a second time: close(s.workQueue)
executes twice, which in Go panics, contradicting the claimed
close-exactly-once property; moreover every completed shutdown (queue
manager exited, Stop returned) closes workQueue exactly twice, never
once. -/
theorem stop_double_closes_workQueue :
    (shutRun (shutInit 1) shutDemoTrace = some ⟨true, 0, true, true⟩ ∧
     shutComplete ⟨true, 0, true, true⟩ = true ∧
     workQueueCloseCount shutDemoTrace = 2) ∧
    (∀ (n : Nat) (es : List ShutEvent) (st : ShutState),
      shutRun (shutInit n) es = some st → shutComplete st = true →
      workQueueCloseCount es = 2) := by
  constructor
  · exact ⟨by decide, by decide, by decide⟩
  · intro n es st h hc
    rw [shutComplete, Bool.and_eq_true, Bool.and_eq_true] at hc
    obtain ⟨⟨h1, h2⟩, _⟩ := hc
    rw [workQueueCloseCount,
      shutRun_mgr_count es (shutInit n) st h rfl,
      shutRun_stop_count es (shutInit n) st h rfl, h1, h2]
    simp

/-- Witness for claim C5's theorem: the universal conjunct applied to
the demonstration trace. -/
theorem stop_double_closes_workQueue_witness :
    workQueueCloseCount shutDemoTrace = 2 :=
  stop_double_closes_workQueue.2 1 shutDemoTrace ⟨true, 0, true, true⟩
    (by decide) (by decide)

/-- Claim C9: on an unloaded, non-loading node, LoadDirectoryContents
fills Files and Subdirs in place and sets IsLoaded, but never writes the
node's own Size (nor its cached counts), which keeps exactly its prior
value; on a listing error it returns the error with the node unchanged,
IsLoaded still false and IsLoading back at false. -/
theorem loadDirectoryContents_size_frame :
    ∀ d : DirInfo, d.isLoaded = false → d.isLoading = false →
      (∀ es : List FsDirEntry, ∃ r : DirInfo,
        LoadDirectoryContents (.mk (some es)) d = (r, none) ∧
        r.size = d.size ∧ r.path = d.path ∧
        r.isLoaded = true ∧ r.isLoading = false ∧
        r.files = loadFilesFromEntries es ∧
        r.subdirs = loadSubdirsFromEntries d.path es ∧
        r.fileCount = d.fileCount ∧ r.subdirCount = d.subdirCount) ∧
      (∃ c : String, LoadDirectoryContents (.mk none) d = (d, some c) ∧
        d.isLoaded = false ∧ d.isLoading = false) := by
  intro d h1 h2
  constructor
  · intro es
    refine ⟨DirInfo.mk d.path d.size (loadFilesFromEntries es)
      (loadSubdirsFromEntries d.path es) true false d.fileCount d.subdirCount,
      ?_, by simp, by simp, by simp, by simp, by simp, by simp, by simp, by simp⟩
    rw [LoadDirectoryContents, h1, h2]
    simp
  · refine ⟨"failed to read directory", ?_, h1, h2⟩
    rw [LoadDirectoryContents, h1, h2]
    simp

/-- Witness for claim C9 at a node of size 777 over a listing holding
one readable file and one subdirectory. -/
theorem loadDirectoryContents_size_frame_witness :
    (∀ es : List FsDirEntry, ∃ r : DirInfo,
      LoadDirectoryContents (.mk (some es)) (DirInfo.mk ["p"] 777 [] [] false false 3 4)
        = (r, none) ∧
      r.size = (DirInfo.mk ["p"] 777 [] [] false false 3 4).size ∧
      r.path = (DirInfo.mk ["p"] 777 [] [] false false 3 4).path ∧
      r.isLoaded = true ∧ r.isLoading = false ∧
      r.files = loadFilesFromEntries es ∧
      r.subdirs = loadSubdirsFromEntries ["p"] es ∧
      r.fileCount = (3 : Int) ∧ r.subdirCount = (4 : Int)) ∧
    (∃ c : String,
      LoadDirectoryContents (.mk none) (DirInfo.mk ["p"] 777 [] [] false false 3 4)
        = (DirInfo.mk ["p"] 777 [] [] false false 3 4, some c) ∧
      (DirInfo.mk ["p"] 777 [] [] false false 3 4).isLoaded = false ∧
      (DirInfo.mk ["p"] 777 [] [] false false 3 4).isLoading = false) :=
  loadDirectoryContents_size_frame (DirInfo.mk ["p"] 777 [] [] false false 3 4) rfl rfl

/-- Claim C3 refuted by the code: integrating the same snapshot twice
adds its size to the ancestor chain twice.  After the first integration
of the 100-byte snapshot r/a the root holds size 100; replaying the
identical update leaves the child in place but adds another 100, so the
root reaches 200 instead of staying at 100. -/
theorem integrate_replay_double_adds :
    sizeOk c3root = true ∧
    (integrateDirectoryIntoTree c3root c3snap).size = 100 ∧
    (integrateDirectoryIntoTree (integrateDirectoryIntoTree c3root c3snap) c3snap).size
      = 200 := by
  refine ⟨by decide, by decide, by decide⟩

/-- Claim C1 counterexample: with the scan rooted at "." (the default
-path value; its segment list is empty, the walk terminator), the batch
consisting of the root update followed by the sub update is processed
exactly as the claim describes, the sub placeholder is replaced, but the
ancestor walk runs zero iterations, so the root keeps size 0 while its
child has size 100: the size invariant fails after the batch. -/
theorem size_invariant_fails_at_dot_root :
    GoodBatch [] c1root0 [c1rootSnap, c1subSnap] ∧
    sizeOk (batchProcess [] c1root0 [c1rootSnap, c1subSnap]) = false := by
  constructor
  · refine GoodBatch.consRoot _ _ _ rfl (by decide) ?_
    refine GoodBatch.consChild _ _ _ (by decide) (by decide) ?_ ?_
    · refine ⟨c1rootSnap, rfl, DirInfo.mk ["sub"] 0 [] [] false false 0 0, ?_, rfl, rfl, rfl⟩
      simp [c1rootSnap]
    · exact GoodBatch.nil _
  · decide

theorem wfOk_def (t : DirInfo) :
    wfOk t = (t.subdirs.all (childShape t.path) && nodupPaths t.subdirs
      && wfOkList t.subdirs) := by
  cases t
  rfl

theorem sizeOk_def (t : DirInfo) :
    sizeOk t = ((t.size == sumFileSizes t.files + sumSubdirSizes t.subdirs)
      && sizeOkList t.subdirs) := by
  cases t
  rfl

theorem sizeOk_local (t : DirInfo) (h : sizeOk t = true) :
    t.size = sumFileSizes t.files + sumSubdirSizes t.subdirs := by
  rw [sizeOk_def, Bool.and_eq_true, beq_iff_eq] at h
  exact h.1

theorem wfOkList_mem (l : List DirInfo) :
    wfOkList l = true ↔ ∀ c ∈ l, wfOk c = true := by
  induction l with
  | nil => simp [wfOkList]
  | cons d ds ih =>
    rw [wfOkList, Bool.and_eq_true, ih]
    simp

theorem sizeOkList_mem (l : List DirInfo) :
    sizeOkList l = true ↔ ∀ c ∈ l, sizeOk c = true := by
  induction l with
  | nil => simp [sizeOkList]
  | cons d ds ih =>
    rw [sizeOkList, Bool.and_eq_true, ih]
    simp

theorem sumSubdirSizes_append (l₁ l₂ : List DirInfo) :
    sumSubdirSizes (l₁ ++ l₂) = sumSubdirSizes l₁ + sumSubdirSizes l₂ := by
  induction l₁ with
  | nil => simp [sumSubdirSizes]
  | cons d ds ih =>
    rw [List.cons_append, sumSubdirSizes, sumSubdirSizes, ih]
    ring

theorem nodupPaths_split (l₁ l₂ : List DirInfo) (c : DirInfo)
    (h : nodupPaths (l₁ ++ c :: l₂) = true) :
    (∀ x ∈ l₁, x.path ≠ c.path) ∧ (∀ x ∈ l₂, x.path ≠ c.path)
      ∧ nodupPaths (l₁ ++ l₂) = true := by
  induction l₁ with
  | nil =>
    rw [List.nil_append, nodupPaths, Bool.and_eq_true, List.all_eq_true] at h
    refine ⟨by simp, ?_, h.2⟩
    intro x hx hpath
    have := h.1 x hx
    rw [hpath] at this
    simp at this
  | cons d ds ih =>
    rw [List.cons_append, nodupPaths, Bool.and_eq_true, List.all_eq_true] at h
    obtain ⟨h1, h2, h3⟩ := ih h.2
    refine ⟨?_, h2, ?_⟩
    · intro x hx
      rcases List.mem_cons.mp hx with rfl | hx2
      · intro hdc
        have := h.1 c (by simp)
        rw [hdc] at this
        simp at this
      · exact h1 x hx2
    · rw [List.cons_append, nodupPaths, Bool.and_eq_true, List.all_eq_true]
      refine ⟨?_, h3⟩
      intro x hx
      refine h.1 x ?_
      rcases List.mem_append.mp hx with hx2 | hx2
      · exact List.mem_append.mpr (Or.inl hx2)
      · exact List.mem_append.mpr (Or.inr (List.mem_cons_of_mem _ hx2))

theorem childShape_path_facts (p : GoPath) (c : DirInfo)
    (h : childShape p c = true) : dirOf c.path = p ∧ c.path ≠ [] := by
  rw [childShape, Bool.and_eq_true, beq_iff_eq] at h
  refine ⟨h.1, ?_⟩
  intro hnil
  rw [hnil] at h
  simp [List.isEmpty] at h

theorem childShape_concat (p : GoPath) (c : DirInfo)
    (h : childShape p c = true) : ∃ n, c.path = p ++ [n] := by
  obtain ⟨h1, h2⟩ := childShape_path_facts p c h
  refine ⟨c.path.getLast h2, ?_⟩
  rw [← h1]
  exact (List.dropLast_append_getLast h2).symm

theorem containsPath_congr (t u : DirInfo) (hp : t.path = u.path)
    (hs : t.subdirs = u.subdirs) (q : GoPath) :
    containsPath t q = containsPath u q := by
  rw [containsPath, containsPath, findDirectoryInTree_def, findDirectoryInTree_def,
    hp, hs]
  by_cases h : u.path = q
  · simp [h]
  · simp [h]

theorem wfOk_congr (t u : DirInfo) (hp : t.path = u.path)
    (hs : t.subdirs = u.subdirs) : wfOk t = wfOk u := by
  rw [wfOk_def, wfOk_def, hp, hs]

theorem findDirectoryInTree_self (t : DirInfo) :
    findDirectoryInTree t t.path = some t := by
  rw [findDirectoryInTree_def, if_pos rfl]

theorem containsPath_self (t : DirInfo) : containsPath t t.path = true := by
  rw [containsPath, findDirectoryInTree_self]
  rfl

mutual

theorem wf_contains_extends : ∀ (t : DirInfo), wfOk t = true →
    ∀ (q : GoPath), containsPath t q = true → ∃ r, q = t.path ++ r
  | .mk p s fs sds ld lg fc sc, hwf, q, hc => by
    rw [containsPath, findDirectoryInTree_def] at hc
    by_cases hpq : (DirInfo.mk p s fs sds ld lg fc sc).path = q
    · exact ⟨[], by simpa using hpq.symm⟩
    · rw [if_neg hpq] at hc
      rw [wfOk_def] at hwf
      simp only [DirInfo.subdirs_mk, DirInfo.path_mk] at hwf hc hpq ⊢
      rw [Bool.and_eq_true, Bool.and_eq_true] at hwf
      obtain ⟨n, r, hr⟩ := wf_contains_extends_list sds p hwf.1.1 hwf.2 q hc
      exact ⟨n :: r, hr⟩

theorem wf_contains_extends_list : ∀ (l : List DirInfo) (p : GoPath),
    l.all (childShape p) = true → wfOkList l = true →
    ∀ (q : GoPath), (findInSubdirs l q).isSome = true → ∃ n r, q = p ++ n :: r
  | [], _, _, _, q, hc => by simp [findInSubdirs] at hc
  | c :: cs, p, hshape, hwfl, q, hc => by
    rw [List.all_cons, Bool.and_eq_true] at hshape
    rw [wfOkList, Bool.and_eq_true] at hwfl
    rw [findInSubdirs] at hc
    cases hf : findDirectoryInTree c q with
    | some d =>
      have hcc : containsPath c q = true := by rw [containsPath, hf]; rfl
      obtain ⟨r, hr⟩ := wf_contains_extends c hwfl.1 q hcc
      obtain ⟨n, hn⟩ := childShape_concat p c hshape.1
      refine ⟨n, r, ?_⟩
      rw [hr, hn, List.append_assoc, List.singleton_append]
    | none =>
      rw [hf] at hc
      exact wf_contains_extends_list cs p hshape.2 hwfl.2 q hc

end

mutual

theorem updateAt_no_contains : ∀ (t : DirInfo) (q : GoPath) (f : DirInfo → DirInfo),
    containsPath t q = false → updateAt t q f = t
  | .mk p s fs sds ld lg fc sc, q, f, hc => by
    rw [containsPath, findDirectoryInTree_def] at hc
    rw [updateAt]
    by_cases hpq : p = q
    · rw [if_pos (by simpa using hpq)] at hc
      simp at hc
    · rw [if_neg (by simpa using hpq)] at hc
      rw [if_neg hpq]
      simp only [DirInfo.subdirs_mk] at hc
      rw [updateAtList_no_contains sds q f (by simpa using hc)]

theorem updateAtList_no_contains : ∀ (l : List DirInfo) (q : GoPath)
    (f : DirInfo → DirInfo), findInSubdirs l q = none → updateAtList l q f = l
  | [], _, _, _ => rfl
  | c :: cs, q, f, hc => by
    rw [findInSubdirs] at hc
    cases hf : findDirectoryInTree c q with
    | some d => rw [hf] at hc; cases hc
    | none =>
      rw [hf] at hc
      rw [updateAtList, if_neg, updateAtList_no_contains cs q f hc]
      rw [containsPath, hf]
      simp

end

theorem findInSubdirs_split (l : List DirInfo) (q : GoPath) (d : DirInfo)
    (h : findInSubdirs l q = some d) :
    ∃ l₁ c l₂, l = l₁ ++ c :: l₂ ∧ (∀ x ∈ l₁, findDirectoryInTree x q = none) ∧
      findDirectoryInTree c q = some d := by
  induction l with
  | nil => simp [findInSubdirs] at h
  | cons c cs ih =>
    rw [findInSubdirs] at h
    cases hf : findDirectoryInTree c q with
    | some r =>
      rw [hf] at h
      cases h
      exact ⟨[], c, cs, rfl, by simp, hf⟩
    | none =>
      rw [hf] at h
      obtain ⟨l₁, c₁, l₂, heq, hnone, hfind⟩ := ih h
      refine ⟨c :: l₁, c₁, l₂, by rw [heq, List.cons_append], ?_, hfind⟩
      intro x hx
      rcases List.mem_cons.mp hx with rfl | hx2
      · exact hf
      · exact hnone x hx2

theorem findInSubdirs_append (l₁ l₂ : List DirInfo) (c : DirInfo) (q : GoPath)
    (h₁ : ∀ x ∈ l₁, findDirectoryInTree x q = none) :
    findInSubdirs (l₁ ++ c :: l₂) q =
      match findDirectoryInTree c q with
      | some d => some d
      | none => findInSubdirs l₂ q := by
  induction l₁ with
  | nil => rw [List.nil_append, findInSubdirs]
  | cons x xs ih =>
    rw [List.cons_append, findInSubdirs, h₁ x (by simp)]
    exact ih (fun y hy => h₁ y (List.mem_cons_of_mem _ hy))

theorem updateAt_path (t : DirInfo) (q : GoPath) (f : DirInfo → DirInfo)
    (h : t.path = q → (f t).path = t.path) : (updateAt t q f).path = t.path := by
  rw [updateAt_def]
  by_cases hpq : t.path = q
  · rw [if_pos hpq]
    exact h hpq
  · rw [if_neg hpq]
    simp

theorem nodupPaths_iff_nodup (l : List DirInfo) :
    nodupPaths l = true ↔ (l.map DirInfo.path).Nodup := by
  induction l with
  | nil => simp [nodupPaths]
  | cons d ds ih =>
    rw [nodupPaths, Bool.and_eq_true, ih, List.map_cons, List.nodup_cons]
    constructor
    · rintro ⟨h1, h2⟩
      refine ⟨?_, h2⟩
      rw [List.all_eq_true] at h1
      intro hmem
      obtain ⟨c, hc, hcp⟩ := List.mem_map.mp hmem
      have h3 := h1 c hc
      simp only [Bool.not_eq_eq_eq_not, Bool.not_true, beq_eq_false_iff_ne] at h3
      exact h3 hcp
    · rintro ⟨h1, h2⟩
      refine ⟨?_, h2⟩
      rw [List.all_eq_true]
      intro c hc
      simp only [Bool.not_eq_eq_eq_not, Bool.not_true, beq_eq_false_iff_ne]
      intro hcp
      exact h1 (List.mem_map.mpr ⟨c, hc, hcp⟩)

theorem nodupPaths_of_map_eq (l l' : List DirInfo)
    (hm : l'.map DirInfo.path = l.map DirInfo.path)
    (h : nodupPaths l = true) : nodupPaths l' = true := by
  rw [nodupPaths_iff_nodup, hm]
  exact (nodupPaths_iff_nodup l).mp h

theorem all_childShape_of_map_eq (p : GoPath) (l l' : List DirInfo)
    (hm : l'.map DirInfo.path = l.map DirInfo.path)
    (h : l.all (childShape p) = true) : l'.all (childShape p) = true := by
  rw [List.all_eq_true] at h ⊢
  intro c hc
  have hmem : c.path ∈ l.map DirInfo.path := by
    rw [← hm]
    exact List.mem_map_of_mem _ hc
  obtain ⟨c2, hc2, hpp⟩ := List.mem_map.mp hmem
  have h3 := h c2 hc2
  rw [childShape] at h3 ⊢
  rw [show c.path = c2.path from hpp.symm]
  exact h3

mutual

theorem wfOk_updateAt : ∀ (t : DirInfo) (q : GoPath) (f : DirInfo → DirInfo),
    wfOk t = true →
    (∀ x : DirInfo, x.path = q → wfOk x = true →
      wfOk (f x) = true ∧ (f x).path = x.path) →
    wfOk (updateAt t q f) = true ∧ (updateAt t q f).path = t.path
  | .mk p s fs sds ld lg fc sc, q, f, hwf, hf => by
    rw [updateAt]
    by_cases hpq : p = q
    · rw [if_pos hpq]
      obtain ⟨h1, h2⟩ := hf (.mk p s fs sds ld lg fc sc) (by simpa using hpq) hwf
      exact ⟨h1, by simpa using h2⟩
    · rw [if_neg hpq]
      rw [wfOk_def] at hwf
      simp only [DirInfo.subdirs_mk, DirInfo.path_mk] at hwf
      rw [Bool.and_eq_true, Bool.and_eq_true] at hwf
      obtain ⟨hl, hmap⟩ := wfOk_updateAtList sds q f hwf.2 hf
      refine ⟨?_, by simp⟩
      rw [wfOk_def]
      simp only [DirInfo.subdirs_mk, DirInfo.path_mk]
      rw [Bool.and_eq_true, Bool.and_eq_true]
      exact ⟨⟨all_childShape_of_map_eq p sds _ hmap hwf.1.1,
        nodupPaths_of_map_eq sds _ hmap hwf.1.2⟩, hl⟩

theorem wfOk_updateAtList : ∀ (l : List DirInfo) (q : GoPath) (f : DirInfo → DirInfo),
    wfOkList l = true →
    (∀ x : DirInfo, x.path = q → wfOk x = true →
      wfOk (f x) = true ∧ (f x).path = x.path) →
    wfOkList (updateAtList l q f) = true ∧
      (updateAtList l q f).map DirInfo.path = l.map DirInfo.path
  | [], _, _, _, _ => ⟨rfl, rfl⟩
  | c :: cs, q, f, hwfl, hf => by
    rw [wfOkList, Bool.and_eq_true] at hwfl
    rw [updateAtList]
    by_cases hc : containsPath c q = true
    · rw [if_pos hc]
      obtain ⟨h1, h2⟩ := wfOk_updateAt c q f hwfl.1 hf
      refine ⟨?_, ?_⟩
      · rw [wfOkList, Bool.and_eq_true]
        exact ⟨h1, hwfl.2⟩
      · rw [List.map_cons, List.map_cons, h2]
    · rw [if_neg hc]
      obtain ⟨h1, h2⟩ := wfOk_updateAtList cs q f hwfl.2 hf
      refine ⟨?_, ?_⟩
      · rw [wfOkList, Bool.and_eq_true]
        exact ⟨hwfl.1, h1⟩
      · rw [List.map_cons, List.map_cons, h2]

end

theorem DirInfo.withSubdirs_withSubdirs (d : DirInfo) (a b : List DirInfo) :
    (d.withSubdirs a).withSubdirs b = d.withSubdirs b := by
  cases d; rfl

theorem contains_false_find_none (x : DirInfo) (q : GoPath)
    (h : containsPath x q = false) : findDirectoryInTree x q = none := by
  rw [containsPath] at h
  cases hf : findDirectoryInTree x q with
  | none => rfl
  | some d => rw [hf] at h; simp at h

theorem findInSubdirs_none (l : List DirInfo) (q : GoPath)
    (h : ∀ x ∈ l, containsPath x q = false) : findInSubdirs l q = none := by
  induction l with
  | nil => rfl
  | cons c cs ih =>
    rw [findInSubdirs, contains_false_find_none c q (h c (by simp))]
    exact ih (fun x hx => h x (List.mem_cons_of_mem _ hx))

theorem updateAtList_split (l₁ l₂ : List DirInfo) (c : DirInfo) (q : GoPath)
    (f : DirInfo → DirInfo) (h₁ : ∀ x ∈ l₁, containsPath x q = false)
    (h₂ : ∀ x ∈ l₂, containsPath x q = false) :
    updateAtList (l₁ ++ c :: l₂) q f = l₁ ++ updateAt c q f :: l₂ := by
  induction l₁ with
  | nil =>
    rw [List.nil_append, updateAtList, List.nil_append]
    by_cases hc : containsPath c q = true
    · rw [if_pos hc]
    · have hc2 : containsPath c q = false := by
        cases h : containsPath c q
        · rfl
        · exact absurd h hc
      rw [if_neg hc, updateAt_no_contains c q f hc2,
        updateAtList_no_contains l₂ q f (findInSubdirs_none l₂ q h₂)]
  | cons x xs ih =>
    rw [List.cons_append, updateAtList, if_neg, List.cons_append]
    · rw [ih (fun y hy => h₁ y (List.mem_cons_of_mem _ hy))]
    · rw [h₁ x (by simp)]
      simp

theorem foldl_updateAt_no_contains (f : DirInfo → DirInfo) :
    ∀ (qs : List GoPath) (t : DirInfo), (∀ q ∈ qs, containsPath t q = false) →
      qs.foldl (fun a q => updateAt a q f) t = t := by
  intro qs
  induction qs with
  | nil => intro t _; rfl
  | cons q qs ih =>
    intro t h
    rw [List.foldl_cons, updateAt_no_contains t q f (h q (by simp))]
    exact ih t (fun q2 hq2 => h q2 (List.mem_cons_of_mem _ hq2))

theorem foldl_updateAt_into_child (f : DirInfo → DirInfo) (t : DirInfo)
    (l₁ l₂ : List DirInfo) :
    ∀ (qs : List GoPath) (c : DirInfo),
      (∀ q ∈ qs, t.path ≠ q) →
      (∀ q ∈ qs, ∀ x ∈ l₁, containsPath x q = false) →
      (∀ q ∈ qs, ∀ x ∈ l₂, containsPath x q = false) →
      qs.foldl (fun a q => updateAt a q f) (t.withSubdirs (l₁ ++ c :: l₂))
        = t.withSubdirs (l₁ ++ qs.foldl (fun a q => updateAt a q f) c :: l₂) := by
  intro qs
  induction qs with
  | nil => intro c _ _ _; rfl
  | cons q qs ih =>
    intro c h0 h1 h2
    rw [List.foldl_cons, List.foldl_cons, updateAt_def,
      if_neg (by simpa using h0 q (by simp)), DirInfo.withSubdirs_subdirs,
      updateAtList_split l₁ l₂ c q f (h1 q (by simp)) (h2 q (by simp)),
      DirInfo.withSubdirs_withSubdirs]
    exact ih (updateAt c q f) (fun p hp => h0 p (List.mem_cons_of_mem _ hp))
      (fun p hp => h1 p (List.mem_cons_of_mem _ hp))
      (fun p hp => h2 p (List.mem_cons_of_mem _ hp))

theorem mapFirstNamed_split (q : GoPath) (g : DirInfo → DirInfo)
    (l₁ l₂ : List DirInfo) (c : DirInfo) (h₁ : ∀ x ∈ l₁, x.path ≠ q)
    (hc : c.path = q) : mapFirstNamed q g (l₁ ++ c :: l₂) = l₁ ++ g c :: l₂ := by
  induction l₁ with
  | nil => rw [List.nil_append, mapFirstNamed, if_pos hc, List.nil_append]
  | cons x xs ih =>
    rw [List.cons_append, mapFirstNamed, if_neg (h₁ x (by simp)), List.cons_append,
      ih (fun y hy => h₁ y (List.mem_cons_of_mem _ hy))]

theorem initSegsAsc_append (a b : GoPath) :
    initSegsAsc (a ++ b) = initSegsAsc a ++ (initSegsAsc b).map (fun q => a ++ q) := by
  induction a with
  | nil => simp [initSegsAsc]
  | cons x xs ih =>
    rw [List.cons_append, initSegsAsc, ih, initSegsAsc, List.map_append,
      List.map_map, List.cons_append]
    rfl

theorem chainDesc_append (a b : GoPath) :
    chainDesc (a ++ b)
      = ((initSegsAsc b).map (fun q => a ++ q)).reverse ++ chainDesc a := by
  rw [chainDesc, initSegsAsc_append, List.reverse_append, chainDesc]

theorem mem_initSegsAsc_facts (p : GoPath) :
    ∀ q ∈ initSegsAsc p, q ≠ [] ∧ q.length ≤ p.length := by
  induction p with
  | nil => simp [initSegsAsc]
  | cons x xs ih =>
    intro q hq
    rw [initSegsAsc] at hq
    rcases List.mem_cons.mp hq with rfl | hq2
    · exact ⟨by simp, by simp⟩
    · obtain ⟨q2, hq2m, rfl⟩ := List.mem_map.mp hq2
      obtain ⟨h1, h2⟩ := ih q2 hq2m
      exact ⟨by simp, by simpa using Nat.succ_le_succ h2⟩

theorem mem_chainDesc_facts (p : GoPath) :
    ∀ q ∈ chainDesc p, q ≠ [] ∧ q.length ≤ p.length := by
  intro q hq
  rw [chainDesc, List.mem_reverse] at hq
  exact mem_initSegsAsc_facts p q hq

theorem mem_initSegsAsc_shape (n : String) (r : List String) :
    ∀ q ∈ initSegsAsc (n :: r), ∃ s, q = n :: s := by
  intro q hq
  rw [initSegsAsc] at hq
  rcases List.mem_cons.mp hq with rfl | hq2
  · exact ⟨[], rfl⟩
  · obtain ⟨q2, _, rfl⟩ := List.mem_map.mp hq2
    exact ⟨q2, rfl⟩

theorem chainDesc_cons (p : GoPath) (h : p ≠ []) :
    chainDesc p = p :: chainDesc (dirOf p) := by
  have hp : dirOf p ++ [p.getLast h] = p := List.dropLast_append_getLast h
  conv_lhs => rw [← hp]
  rw [chainDesc_append]
  simp [initSegsAsc, hp]

theorem foldl_updateAt_skeleton (f : DirInfo → DirInfo)
    (hf : ∀ x : DirInfo, (f x).path = x.path ∧ (f x).subdirs = x.subdirs) :
    ∀ (qs : List GoPath) (t : DirInfo), wfOk t = true →
      wfOk (qs.foldl (fun a q => updateAt a q f) t) = true ∧
      (qs.foldl (fun a q => updateAt a q f) t).path = t.path := by
  intro qs
  induction qs with
  | nil => intro t h; exact ⟨h, rfl⟩
  | cons q qs ih =>
    intro t h
    have hstep := wfOk_updateAt t q f h (fun x _ hwx =>
      ⟨by rw [wfOk_congr (f x) x (hf x).1 (hf x).2]; exact hwx, (hf x).1⟩)
    rw [List.foldl_cons]
    obtain ⟨h1, h2⟩ := ih (updateAt t q f) hstep.1
    exact ⟨h1, h2.trans hstep.2⟩

theorem contains_length_le (x : DirInfo) (hx : wfOk x = true) (q : GoPath)
    (hc : containsPath x q = true) : x.path.length ≤ q.length := by
  obtain ⟨r, hr⟩ := wf_contains_extends x hx q hc
  rw [hr]
  simp

theorem contains_false_of_short (x : DirInfo) (hx : wfOk x = true) (q : GoPath)
    (hlen : q.length < x.path.length) : containsPath x q = false := by
  cases hc : containsPath x q with
  | false => rfl
  | true => exact absurd (contains_length_le x hx q hc) (by omega)

theorem walk_fuses_to_spine (f : DirInfo → DirInfo)
    (hf : ∀ x : DirInfo, (f x).path = x.path ∧ (f x).subdirs = x.subdirs) :
    ∀ (r : List String) (t : DirInfo) (g : DirInfo → DirInfo),
      wfOk t = true → t.path ≠ [] →
      containsPath t (t.path ++ r) = true →
      (∀ x : DirInfo, x.path = t.path ++ r → wfOk x = true →
        wfOk (g x) = true ∧ (g x).path = x.path) →
      (chainDesc (t.path ++ r)).foldl (fun a q => updateAt a q f)
          (updateAt t (t.path ++ r) g)
        = spineApply f g t r := by
  intro r
  induction r with
  | nil =>
    intro t g hwf hne _ hg
    rw [List.append_nil] at hg ⊢
    obtain ⟨hgw, hgp⟩ := hg t rfl hwf
    rw [updateAt_def, if_pos rfl]
    simp only [chainDesc_cons t.path hne, List.foldl_cons]
    rw [updateAt_def, if_pos hgp]
    have hnoc : ∀ q ∈ chainDesc (dirOf t.path), containsPath (f (g t)) q = false := by
      intro q hq
      obtain ⟨hq1, hq2⟩ := mem_chainDesc_facts (dirOf t.path) q hq
      rw [containsPath_congr (f (g t)) (g t) (hf (g t)).1 (hf (g t)).2]
      apply contains_false_of_short (g t) hgw
      rw [hgp]
      have hpos : 0 < t.path.length := List.length_pos.mpr hne
      have hdl : (dirOf t.path).length = t.path.length - 1 := by
        simp [dirOf]
      omega
    rw [foldl_updateAt_no_contains f _ _ hnoc]
    rfl
  | cons n r' ih =>
    intro t g hwf hne hcont hg
    have hnept : t.path ≠ t.path ++ n :: r' := by
      intro h
      have := congrArg List.length h
      simp at this
    rw [containsPath, findDirectoryInTree_def, if_neg hnept] at hcont
    obtain ⟨d, hd⟩ := Option.isSome_iff_exists.mp hcont
    obtain ⟨l₁, c₀, l₂, hsds, hl₁none, hc₀find⟩ :=
      findInSubdirs_split t.subdirs (t.path ++ n :: r') d hd
    rw [wfOk_def, Bool.and_eq_true, Bool.and_eq_true] at hwf
    obtain ⟨⟨hshape, hnodup⟩, hwfl⟩ := hwf
    have hc₀mem : c₀ ∈ t.subdirs := by rw [hsds]; simp
    have hc₀wf : wfOk c₀ = true := (wfOkList_mem t.subdirs).mp hwfl c₀ hc₀mem
    have hc₀cont : containsPath c₀ (t.path ++ n :: r') = true := by
      rw [containsPath, hc₀find]; rfl
    obtain ⟨m, hm⟩ := childShape_concat t.path c₀
      (List.all_eq_true.mp hshape c₀ hc₀mem)
    obtain ⟨r2, hr2⟩ := wf_contains_extends c₀ hc₀wf _ hc₀cont
    have hc₀path : c₀.path = t.path ++ [n] := by
      rw [hm, List.append_assoc] at hr2
      have h3 := List.append_cancel_left hr2
      rw [List.singleton_append] at h3
      rw [hm, (List.cons_eq_cons.mp h3).1]
    rw [hsds] at hnodup
    obtain ⟨hl₁ne, hl₂ne, _⟩ := nodupPaths_split l₁ l₂ c₀ hnodup
    have hl₁mem : ∀ x ∈ l₁, x ∈ t.subdirs := by
      intro x hx; rw [hsds]; exact List.mem_append.mpr (Or.inl hx)
    have hl₂mem : ∀ x ∈ l₂, x ∈ t.subdirs := by
      intro x hx
      rw [hsds]
      exact List.mem_append.mpr (Or.inr (List.mem_cons_of_mem _ hx))
    have hsib : ∀ x ∈ t.subdirs, x.path ≠ c₀.path →
        ∀ s : List String, containsPath x (t.path ++ n :: s) = false := by
      intro x hx hxne s
      cases hcx : containsPath x (t.path ++ n :: s) with
      | false => rfl
      | true =>
        exfalso
        have hxwf : wfOk x = true := (wfOkList_mem t.subdirs).mp hwfl x hx
        obtain ⟨mx, hmx⟩ := childShape_concat t.path x
          (List.all_eq_true.mp hshape x hx)
        obtain ⟨rx, hrx⟩ := wf_contains_extends x hxwf _ hcx
        rw [hmx, List.append_assoc] at hrx
        have h3 := List.append_cancel_left hrx
        rw [List.singleton_append] at h3
        apply hxne
        rw [hmx, hc₀path, (List.cons_eq_cons.mp h3).1]
    have hupd : updateAt t (t.path ++ n :: r') g
        = t.withSubdirs (l₁ ++ updateAt c₀ (t.path ++ n :: r') g :: l₂) := by
      rw [updateAt_def, if_neg hnept, hsds]
      rw [updateAtList_split l₁ l₂ c₀ _ g
        (fun x hx => by rw [containsPath, hl₁none x hx]; rfl)
        (fun x hx => hsib x (hl₂mem x hx)
          (fun h => hl₂ne x hx (by rw [h])) r')]
    have hmapeq : (initSegsAsc r').map ((fun q => t.path ++ q) ∘ (fun q => n :: q))
        = (initSegsAsc r').map (fun q => (t.path ++ [n]) ++ q) := by
      apply List.map_congr_left
      intro q _
      show t.path ++ (n :: q) = (t.path ++ [n]) ++ q
      rw [List.append_assoc, List.singleton_append]
    have hchain : chainDesc (t.path ++ n :: r')
        = ((((initSegsAsc r').map (fun q => (t.path ++ [n]) ++ q)).reverse
            ++ [t.path ++ [n]]))
          ++ chainDesc t.path := by
      rw [chainDesc_append]
      congr 1
      rw [initSegsAsc, List.map_cons, List.map_map, hmapeq, List.reverse_cons]
    have hdeepshape : ∀ q ∈ ((initSegsAsc r').map
          (fun q => (t.path ++ [n]) ++ q)).reverse ++ [t.path ++ [n]],
        ∃ s, q = t.path ++ n :: s := by
      intro q hq
      rcases List.mem_append.mp hq with hq1 | hq1
      · rw [List.mem_reverse] at hq1
        obtain ⟨q2, hq2m, rfl⟩ := List.mem_map.mp hq1
        exact ⟨q2, by rw [List.append_assoc, List.singleton_append]⟩
      · rw [List.mem_singleton.mp hq1]
        exact ⟨[], rfl⟩
    have hphase1 : (((initSegsAsc r').map
          (fun q => (t.path ++ [n]) ++ q)).reverse ++ [t.path ++ [n]]).foldl
            (fun a q => updateAt a q f)
            (t.withSubdirs (l₁ ++ updateAt c₀ (t.path ++ n :: r') g :: l₂))
        = t.withSubdirs (l₁ ++ (((initSegsAsc r').map
            (fun q => (t.path ++ [n]) ++ q)).reverse ++ [t.path ++ [n]]).foldl
              (fun a q => updateAt a q f)
              (updateAt c₀ (t.path ++ n :: r') g) :: l₂) := by
      apply foldl_updateAt_into_child
      · intro q hq
        obtain ⟨s, rfl⟩ := hdeepshape q hq
        intro h
        have := congrArg List.length h
        simp at this
      · intro q hq x hx
        obtain ⟨s, rfl⟩ := hdeepshape q hq
        exact hsib x (hl₁mem x hx) (fun h => hl₁ne x hx (by rw [h])) s
      · intro q hq x hx
        obtain ⟨s, rfl⟩ := hdeepshape q hq
        exact hsib x (hl₂mem x hx) (fun h => hl₂ne x hx (by rw [h])) s
    have hXwf : wfOk (updateAt c₀ (t.path ++ n :: r') g) = true ∧
        (updateAt c₀ (t.path ++ n :: r') g).path = c₀.path :=
      wfOk_updateAt c₀ _ g hc₀wf hg
    have hfold : ∀ qs : List GoPath,
        wfOk (qs.foldl (fun a q => updateAt a q f)
          (updateAt c₀ (t.path ++ n :: r') g)) = true ∧
        (qs.foldl (fun a q => updateAt a q f)
          (updateAt c₀ (t.path ++ n :: r') g)).path = c₀.path := by
      intro qs
      obtain ⟨h1, h2⟩ := foldl_updateAt_skeleton f hf qs _ hXwf.1
      exact ⟨h1, h2.trans hXwf.2⟩
    rw [hupd, hchain, List.foldl_append, hphase1]
    have hT₁path : ∀ C : DirInfo,
        (t.withSubdirs (l₁ ++ C :: l₂)).path = t.path := by
      intro C; simp
    simp only [chainDesc_cons t.path hne, List.foldl_cons]
    rw [updateAt_def, if_pos (hT₁path _)]
    have hnoc2 : ∀ q ∈ chainDesc (dirOf t.path),
        containsPath (f (t.withSubdirs (l₁ ++ (((initSegsAsc r').map
          (fun q => (t.path ++ [n]) ++ q)).reverse ++ [t.path ++ [n]]).foldl
            (fun a q => updateAt a q f)
            (updateAt c₀ (t.path ++ n :: r') g) :: l₂))) q = false := by
      intro q hq
      obtain ⟨hq1, hq2⟩ := mem_chainDesc_facts (dirOf t.path) q hq
      have hqlen : q.length < t.path.length := by
        have hpos : 0 < t.path.length := List.length_pos.mpr hne
        have hdl : (dirOf t.path).length = t.path.length - 1 := by simp [dirOf]
        omega
      rw [containsPath_congr _ _ (hf _).1 (hf _).2]
      rw [containsPath, findDirectoryInTree_def]
      rw [if_neg (by rw [hT₁path _]; intro h; rw [← h] at hqlen; omega)]
      rw [DirInfo.withSubdirs_subdirs, findInSubdirs_none]
      · rfl
      · intro x hx
        rcases List.mem_append.mp hx with hx1 | hx1
        · have hxwf : wfOk x = true :=
            (wfOkList_mem t.subdirs).mp hwfl x (hl₁mem x hx1)
          obtain ⟨mx, hmx⟩ := childShape_concat t.path x
            (List.all_eq_true.mp hshape x (hl₁mem x hx1))
          apply contains_false_of_short x hxwf
          rw [hmx]
          simp
          omega
        · rcases List.mem_cons.mp hx1 with hxc | hx2
          · rw [hxc]
            apply contains_false_of_short _ (hfold _).1
            rw [(hfold _).2, hc₀path]
            simp
            omega
          · have hxwf : wfOk x = true :=
              (wfOkList_mem t.subdirs).mp hwfl x (hl₂mem x hx2)
            obtain ⟨mx, hmx⟩ := childShape_concat t.path x
              (List.all_eq_true.mp hshape x (hl₂mem x hx2))
            apply contains_false_of_short x hxwf
            rw [hmx]
            simp
            omega
    rw [foldl_updateAt_no_contains f _ _ hnoc2]
    have hCspine : (((initSegsAsc r').map
          (fun q => (t.path ++ [n]) ++ q)).reverse ++ [t.path ++ [n]]).foldl
            (fun a q => updateAt a q f)
            (updateAt c₀ (t.path ++ n :: r') g)
        = spineApply f g c₀ r' := by
      have happ : (t.path ++ [n]) ++ r' = t.path ++ n :: r' := by
        rw [List.append_assoc, List.singleton_append]
      have hih := ih c₀ g hc₀wf (by rw [hc₀path]; simp)
        (by rw [hc₀path, happ]; exact hc₀cont)
        (by rw [hc₀path, happ]; exact hg)
      rw [hc₀path, happ] at hih
      have hchain2 : chainDesc (t.path ++ n :: r')
          = ((initSegsAsc r').map (fun q => (t.path ++ [n]) ++ q)).reverse
            ++ ((t.path ++ [n]) :: chainDesc t.path) := by
        rw [hchain, List.append_assoc, List.singleton_append]
      rw [hchain2, List.foldl_append] at hih
      simp only [List.foldl_cons] at hih
      have hnoc3 : ∀ q ∈ chainDesc t.path,
          containsPath (updateAt (((initSegsAsc r').map
            (fun q => (t.path ++ [n]) ++ q)).reverse.foldl
              (fun a q => updateAt a q f)
              (updateAt c₀ (t.path ++ n :: r') g))
            (t.path ++ [n]) f) q = false := by
        intro q hq
        obtain ⟨hq1, hq2⟩ := mem_chainDesc_facts t.path q hq
        have hupdwf := wfOk_updateAt (((initSegsAsc r').map
            (fun q => (t.path ++ [n]) ++ q)).reverse.foldl
              (fun a q => updateAt a q f)
              (updateAt c₀ (t.path ++ n :: r') g)) (t.path ++ [n]) f
            (hfold _).1
            (fun x _ hwx =>
              ⟨by rw [wfOk_congr (f x) x (hf x).1 (hf x).2]; exact hwx, (hf x).1⟩)
        apply contains_false_of_short _ hupdwf.1
        rw [hupdwf.2, (hfold _).2, hc₀path]
        simp
        omega
      rw [foldl_updateAt_no_contains f _ _ hnoc3] at hih
      rw [List.foldl_append]
      simp only [List.foldl_cons, List.foldl_nil]
      exact hih
    rw [hCspine, spineApply]
    congr 2
    rw [hsds]
    rw [mapFirstNamed_split (joinPath t.path n) _ l₁ l₂ c₀
      (fun x hx h => hl₁ne x hx (by rw [h, joinPath, ← hc₀path]))
      (by rw [joinPath, hc₀path])]

theorem replaceFirstSubdir_map_path (l : List DirInfo) (di : DirInfo) :
    (replaceFirstSubdir l di).map DirInfo.path = l.map DirInfo.path := by
  induction l with
  | nil => rfl
  | cons c cs ih =>
    rw [replaceFirstSubdir]
    by_cases hc : c.path = di.path
    · rw [if_pos hc, List.map_cons, List.map_cons, hc]
    · rw [if_neg hc, List.map_cons, List.map_cons, ih]

theorem replaceFirstSubdir_wfOkList (l : List DirInfo) (di : DirInfo)
    (hl : wfOkList l = true) (hdi : wfOk di = true) :
    wfOkList (replaceFirstSubdir l di) = true := by
  induction l with
  | nil => exact hl
  | cons c cs ih =>
    rw [wfOkList, Bool.and_eq_true] at hl
    rw [replaceFirstSubdir]
    by_cases hc : c.path = di.path
    · rw [if_pos hc, wfOkList, Bool.and_eq_true]
      exact ⟨hdi, hl.2⟩
    · rw [if_neg hc, wfOkList, Bool.and_eq_true]
      exact ⟨hl.1, ih hl.2⟩

theorem replaceFirstSubdir_sizeOkList (l : List DirInfo) (di : DirInfo)
    (hl : sizeOkList l = true) (hdi : sizeOk di = true) :
    sizeOkList (replaceFirstSubdir l di) = true := by
  induction l with
  | nil => exact hl
  | cons c cs ih =>
    rw [sizeOkList, Bool.and_eq_true] at hl
    rw [replaceFirstSubdir]
    by_cases hc : c.path = di.path
    · rw [if_pos hc, sizeOkList, Bool.and_eq_true]
      exact ⟨hdi, hl.2⟩
    · rw [if_neg hc, sizeOkList, Bool.and_eq_true]
      exact ⟨hl.1, ih hl.2⟩

theorem replaceFirstSubdir_sum (l : List DirInfo) (di : DirInfo)
    (hnd : nodupPaths l = true) (c : DirInfo) (hc : c ∈ l)
    (hcp : c.path = di.path) (hcz : c.size = 0) :
    sumSubdirSizes (replaceFirstSubdir l di) = sumSubdirSizes l + di.size := by
  induction l with
  | nil => cases hc
  | cons x xs ih =>
    rw [nodupPaths, Bool.and_eq_true, List.all_eq_true] at hnd
    rw [replaceFirstSubdir]
    rcases List.mem_cons.mp hc with rfl | hc2
    · rw [if_pos hcp, sumSubdirSizes, sumSubdirSizes, hcz]
      ring
    · have hxne : x.path ≠ di.path := by
        intro h
        have h2 := hnd.1 c hc2
        simp only [Bool.not_eq_eq_eq_not, Bool.not_true, beq_eq_false_iff_ne] at h2
        exact h2 (hcp.trans h.symm)
      rw [if_neg hxne, sumSubdirSizes, sumSubdirSizes, ih hnd.2 hc2]
      ring

theorem replace_parent_wf (di x : DirInfo) (hx : wfOk x = true)
    (hdi : wfOk di = true) :
    wfOk (x.withSubdirs (replaceFirstSubdir x.subdirs di)) = true ∧
    (x.withSubdirs (replaceFirstSubdir x.subdirs di)).path = x.path := by
  refine ⟨?_, by simp⟩
  rw [wfOk_def] at hx ⊢
  simp only [DirInfo.withSubdirs_subdirs, DirInfo.withSubdirs_path]
  rw [Bool.and_eq_true, Bool.and_eq_true] at hx ⊢
  refine ⟨⟨?_, ?_⟩, ?_⟩
  · exact all_childShape_of_map_eq x.path x.subdirs _
      (replaceFirstSubdir_map_path x.subdirs di) hx.1.1
  · exact nodupPaths_of_map_eq x.subdirs _
      (replaceFirstSubdir_map_path x.subdirs di) hx.1.2
  · exact replaceFirstSubdir_wfOkList x.subdirs di hx.2 hdi

mutual

theorem find_wfOk : ∀ (t : DirInfo) (q : GoPath) (d : DirInfo),
    findDirectoryInTree t q = some d → wfOk t = true → wfOk d = true
  | .mk p s fs sds ld lg fc sc, q, d, h, hwf => by
    rw [findDirectoryInTree] at h
    split at h
    · cases h; exact hwf
    · rw [wfOk_def, Bool.and_eq_true] at hwf
      simp only [DirInfo.subdirs_mk] at hwf
      exact find_wfOk_list sds q d h hwf.2

theorem find_wfOk_list : ∀ (l : List DirInfo) (q : GoPath) (d : DirInfo),
    findInSubdirs l q = some d → wfOkList l = true → wfOk d = true
  | [], _, _, h, _ => by simp [findInSubdirs] at h
  | c :: cs, q, d, h, hwf => by
    rw [wfOkList, Bool.and_eq_true] at hwf
    rw [findInSubdirs] at h
    cases hf : findDirectoryInTree c q with
    | some r =>
      rw [hf] at h
      cases h
      exact find_wfOk c q d hf hwf.1
    | none =>
      rw [hf] at h
      exact find_wfOk_list cs q d h hwf.2

end

mutual

theorem find_sizeOk : ∀ (t : DirInfo) (q : GoPath) (d : DirInfo),
    findDirectoryInTree t q = some d → sizeOk t = true → sizeOk d = true
  | .mk p s fs sds ld lg fc sc, q, d, h, hsz => by
    rw [findDirectoryInTree] at h
    split at h
    · cases h; exact hsz
    · rw [sizeOk_def, Bool.and_eq_true] at hsz
      simp only [DirInfo.subdirs_mk] at hsz
      exact find_sizeOk_list sds q d h hsz.2

theorem find_sizeOk_list : ∀ (l : List DirInfo) (q : GoPath) (d : DirInfo),
    findInSubdirs l q = some d → sizeOkList l = true → sizeOk d = true
  | [], _, _, h, _ => by simp [findInSubdirs] at h
  | c :: cs, q, d, h, hsz => by
    rw [sizeOkList, Bool.and_eq_true] at hsz
    rw [findInSubdirs] at h
    cases hf : findDirectoryInTree c q with
    | some r =>
      rw [hf] at h
      cases h
      exact find_sizeOk c q d hf hsz.1
    | none =>
      rw [hf] at h
      exact find_sizeOk_list cs q d h hsz.2

end

theorem find_child_decomp (t : DirInfo) (n : String) (r' : List String)
    (parent : DirInfo) (hwf : wfOk t = true)
    (hfind : findDirectoryInTree t (t.path ++ n :: r') = some parent) :
    ∃ l₁ c₀ l₂, t.subdirs = l₁ ++ c₀ :: l₂ ∧
      c₀.path = t.path ++ [n] ∧
      findDirectoryInTree c₀ ((t.path ++ [n]) ++ r') = some parent ∧
      (∀ x ∈ l₁, x.path ≠ c₀.path) ∧ (∀ x ∈ l₂, x.path ≠ c₀.path) := by
  have hnept : t.path ≠ t.path ++ n :: r' := by
    intro h
    have := congrArg List.length h
    simp at this
  rw [findDirectoryInTree_def, if_neg hnept] at hfind
  obtain ⟨l₁, c₀, l₂, hsds, hl₁none, hc₀find⟩ :=
    findInSubdirs_split t.subdirs (t.path ++ n :: r') parent hfind
  rw [wfOk_def, Bool.and_eq_true, Bool.and_eq_true] at hwf
  obtain ⟨⟨hshape, hnodup⟩, hwfl⟩ := hwf
  have hc₀mem : c₀ ∈ t.subdirs := by rw [hsds]; simp
  have hc₀wf : wfOk c₀ = true := (wfOkList_mem t.subdirs).mp hwfl c₀ hc₀mem
  have hc₀cont : containsPath c₀ (t.path ++ n :: r') = true := by
    rw [containsPath, hc₀find]; rfl
  obtain ⟨m, hm⟩ := childShape_concat t.path c₀
    (List.all_eq_true.mp hshape c₀ hc₀mem)
  obtain ⟨r2, hr2⟩ := wf_contains_extends c₀ hc₀wf _ hc₀cont
  have hc₀path : c₀.path = t.path ++ [n] := by
    rw [hm, List.append_assoc] at hr2
    have h3 := List.append_cancel_left hr2
    rw [List.singleton_append] at h3
    rw [hm, (List.cons_eq_cons.mp h3).1]
  rw [hsds] at hnodup
  obtain ⟨hl₁ne, hl₂ne, _⟩ := nodupPaths_split l₁ l₂ c₀ hnodup
  refine ⟨l₁, c₀, l₂, hsds, hc₀path, ?_, hl₁ne, hl₂ne⟩
  rw [List.append_assoc, List.singleton_append]
  exact hc₀find

theorem spine_integrate_inv :
    ∀ (r : List String) (t di : DirInfo),
      wfOk t = true → sizeOk t = true → snapshotOk di = true →
      (∃ parent, findDirectoryInTree t (t.path ++ r) = some parent ∧
        ∃ c ∈ parent.subdirs, c.path = di.path ∧ c.size = 0) →
      ∀ res : DirInfo, res = spineApply (addSizeFn di.size)
          (fun d => d.withSubdirs (replaceFirstSubdir d.subdirs di)) t r →
      wfOk res = true ∧ sizeOk res = true ∧ res.path = t.path ∧
        res.size = t.size + di.size := by
  intro r
  induction r with
  | nil =>
    intro t di hwf hsz hsn hready res hres
    rw [snapshotOk, Bool.and_eq_true] at hsn
    obtain ⟨parent, hfind, c, hcmem, hcp, hcz⟩ := hready
    rw [List.append_nil, findDirectoryInTree_self] at hfind
    cases hfind
    rw [spineApply] at hres
    have hgwf := replace_parent_wf di t hwf hsn.2
    have hsub : res.subdirs = replaceFirstSubdir t.subdirs di := by
      rw [hres, addSizeFn]
      simp
    have hpath : res.path = t.path := by
      rw [hres, addSizeFn]
      simp
    have hsize : res.size = t.size + di.size := by
      rw [hres, addSizeFn]
      simp
    have hfiles : res.files = t.files := by
      rw [hres, addSizeFn]
      simp
    have hnodup : nodupPaths t.subdirs = true := by
      rw [wfOk_def, Bool.and_eq_true, Bool.and_eq_true] at hwf
      exact hwf.1.2
    refine ⟨?_, ?_, hpath, hsize⟩
    · rw [wfOk_congr res (t.withSubdirs (replaceFirstSubdir t.subdirs di)) (by simpa using hpath)
        (by simpa using hsub)]
      exact hgwf.1
    · rw [sizeOk_def, Bool.and_eq_true, beq_iff_eq, hsub, hsize, hfiles]
      constructor
      · rw [replaceFirstSubdir_sum t.subdirs di hnodup c hcmem hcp hcz,
          sizeOk_local t hsz]
        ring
      · rw [sizeOk_def, Bool.and_eq_true] at hsz
        exact replaceFirstSubdir_sizeOkList t.subdirs di hsz.2 hsn.1
  | cons n r' ih =>
    intro t di hwf hsz hsn hready res hres
    obtain ⟨parent, hfind, c, hcmem, hcp, hcz⟩ := hready
    obtain ⟨l₁, c₀, l₂, hsds, hc₀path, hc₀find, hl₁ne, hl₂ne⟩ :=
      find_child_decomp t n r' parent hwf hfind
    have hc₀mem : c₀ ∈ t.subdirs := by rw [hsds]; simp
    have hc₀wf : wfOk c₀ = true := by
      rw [wfOk_def, Bool.and_eq_true, Bool.and_eq_true] at hwf
      exact (wfOkList_mem t.subdirs).mp hwf.2 c₀ hc₀mem
    have hc₀sz : sizeOk c₀ = true := by
      rw [sizeOk_def, Bool.and_eq_true] at hsz
      exact (sizeOkList_mem t.subdirs).mp hsz.2 c₀ hc₀mem
    have hc₀find2 : findDirectoryInTree c₀ (c₀.path ++ r') = some parent := by
      rw [hc₀path]
      exact hc₀find
    obtain ⟨hSwf, hSsz, hSpath, hSsize⟩ := ih c₀ di hc₀wf hc₀sz hsn
      ⟨parent, hc₀find2, c, hcmem, hcp, hcz⟩ _ rfl
    rw [spineApply] at hres
    rw [hsds] at hres
    rw [mapFirstNamed_split (joinPath t.path n) _ l₁ l₂ c₀
      (fun x hx h => hl₁ne x hx (by rw [h, joinPath, ← hc₀path]))
      (by rw [joinPath, hc₀path])] at hres
    have hsub : res.subdirs = l₁ ++ spineApply (addSizeFn di.size)
        (fun d => d.withSubdirs (replaceFirstSubdir d.subdirs di)) c₀ r' :: l₂ := by
      rw [hres, addSizeFn]
      simp
    have hpath : res.path = t.path := by
      rw [hres, addSizeFn]
      simp
    have hsize : res.size = t.size + di.size := by
      rw [hres, addSizeFn]
      simp
    have hfiles : res.files = t.files := by
      rw [hres, addSizeFn]
      simp
    have hmapeq : res.subdirs.map DirInfo.path = t.subdirs.map DirInfo.path := by
      rw [hsub, hsds]
      simp [hSpath]
    refine ⟨?_, ?_, hpath, hsize⟩
    · rw [wfOk_def, Bool.and_eq_true, Bool.and_eq_true]
      rw [wfOk_def, Bool.and_eq_true, Bool.and_eq_true] at hwf
      refine ⟨⟨?_, ?_⟩, ?_⟩
      · rw [hpath]
        exact all_childShape_of_map_eq t.path t.subdirs _ hmapeq hwf.1.1
      · exact nodupPaths_of_map_eq t.subdirs _ hmapeq hwf.1.2
      · rw [hsub, wfOkList_mem]
        intro x hx
        rcases List.mem_append.mp hx with hx1 | hx1
        · exact (wfOkList_mem t.subdirs).mp hwf.2 x (by rw [hsds]; simp [hx1])
        · rcases List.mem_cons.mp hx1 with rfl | hx2
          · exact hSwf
          · refine (wfOkList_mem t.subdirs).mp hwf.2 x ?_
            rw [hsds]
            exact List.mem_append.mpr (Or.inr (List.mem_cons_of_mem _ hx2))
    · rw [sizeOk_def, Bool.and_eq_true, beq_iff_eq]
      rw [sizeOk_def, Bool.and_eq_true, beq_iff_eq] at hsz
      constructor
      · rw [hsize, hfiles, hsub, sumSubdirSizes_append, sumSubdirSizes, hSsize]
        have h2 : t.size = sumFileSizes t.files + sumSubdirSizes t.subdirs := hsz.1
        rw [hsds, sumSubdirSizes_append, sumSubdirSizes] at h2
        rw [h2]
        ring
      · rw [hsub, sizeOkList_mem]
        intro x hx
        rcases List.mem_append.mp hx with hx1 | hx1
        · exact (sizeOkList_mem t.subdirs).mp hsz.2 x (by rw [hsds]; simp [hx1])
        · rcases List.mem_cons.mp hx1 with rfl | hx2
          · exact hSsz
          · refine (sizeOkList_mem t.subdirs).mp hsz.2 x ?_
            rw [hsds]
            exact List.mem_append.mpr (Or.inr (List.mem_cons_of_mem _ hx2))

theorem integrate_inv (t di : DirInfo)
    (hwf : wfOk t = true) (hsz : sizeOk t = true) (hne : t.path ≠ [])
    (hsn : snapshotOk di = true) (hready : placeholderReady t di) :
    wfOk (integrateDirectoryIntoTree t di) = true ∧
    sizeOk (integrateDirectoryIntoTree t di) = true ∧
    (integrateDirectoryIntoTree t di).path = t.path ∧
    (integrateDirectoryIntoTree t di).size = t.size + di.size := by
  obtain ⟨parent, hfind, c, hcmem, hcp, hcz, _⟩ := hready
  have hsn2 : sizeOk di = true ∧ wfOk di = true := by
    rw [snapshotOk, Bool.and_eq_true] at hsn
    exact hsn
  have hhas : hasSubdirWithPath parent.subdirs di.path = true := by
    rw [hasSubdirWithPath, List.any_eq_true]
    exact ⟨c, hcmem, by rw [beq_iff_eq, hcp]⟩
  have hcont : containsPath t (dirOf di.path) = true := by
    rw [containsPath, hfind]
    rfl
  obtain ⟨r, hr⟩ := wf_contains_extends t hwf _ hcont
  have hgoal : integrateDirectoryIntoTree t di
      = updateParentSizesFromChild
          (updateAt t (dirOf di.path)
            (fun d => d.withSubdirs (replaceFirstSubdir d.subdirs di)))
          (dirOf di.path) di.size := by
    rw [integrateDirectoryIntoTree]
    simp only [hfind, hhas, if_true]
  have hspine : integrateDirectoryIntoTree t di
      = spineApply (addSizeFn di.size)
          (fun d => d.withSubdirs (replaceFirstSubdir d.subdirs di)) t r := by
    rw [hgoal, hr, updateParentSizesFromChild]
    exact walk_fuses_to_spine (addSizeFn di.size)
      (fun x => ⟨by simp [addSizeFn], by simp [addSizeFn]⟩) r t _ hwf hne
      (by rw [← hr]; exact hcont)
      (fun x _ hwx => replace_parent_wf di x hwx hsn2.2)
  obtain ⟨h1, h2, h3, h4⟩ := spine_integrate_inv r t di hwf hsz hsn
    ⟨parent, by rw [← hr]; exact hfind, c, hcmem, hcp, hcz⟩
    (integrateDirectoryIntoTree t di) hspine
  exact ⟨h1, h2, h3, h4⟩

/-- Claim C1 as amended: provided the scan root's path is neither "/"
nor "." (the walk terminators; nonempty in the segment model), a fully
processed batch of streamed snapshots, each either the root update or a
non-root update replacing its matching placeholder child, leaves a tree
in which every node's Size equals the sum of its direct file sizes plus
the Size of every child. -/
theorem batch_preserves_size_invariant :
    ∀ (cp : GoPath) (dis : List DirInfo) (t : DirInfo),
      cp ≠ [] → t.path = cp → wfOk t = true → sizeOk t = true →
      GoodBatch cp t dis →
      sizeOk (batchProcess cp t dis) = true ∧
      wfOk (batchProcess cp t dis) = true ∧
      (batchProcess cp t dis).path = cp := by
  intro cp dis
  induction dis with
  | nil =>
    intro t hcp hp hwf hsz _
    exact ⟨hsz, hwf, hp⟩
  | cons di rest ih =>
    intro t hcp hp hwf hsz hgb
    cases hgb with
    | consRoot _ _ _ hdip hsn hgb2 =>
      have hstep : processUpdate cp t di = di := by
        rw [processUpdate, if_pos hdip]
      simp only [batchProcess, List.foldl_cons, hstep]
      rw [snapshotOk, Bool.and_eq_true] at hsn
      exact ih di hcp hdip hsn.2 hsn.1 hgb2
    | consChild _ _ _ hdip hsn hready hgb2 =>
      have hstep : processUpdate cp t di = integrateDirectoryIntoTree t di := by
        rw [processUpdate, if_neg hdip]
      simp only [batchProcess, List.foldl_cons, hstep]
      obtain ⟨h1, h2, h3, h4⟩ := integrate_inv t di hwf hsz
        (by rw [hp]; exact hcp) hsn hready
      exact ih _ hcp (h3.trans hp) h1 h2 hgb2

/-- Witness for the amended claim C1: a root at path r holding a
placeholder r/a, integrating the snapshot of r/a. -/
theorem batch_preserves_size_invariant_witness :
    sizeOk (batchProcess ["r"] c3root [c3snap]) = true ∧
    wfOk (batchProcess ["r"] c3root [c3snap]) = true ∧
    (batchProcess ["r"] c3root [c3snap]).path = ["r"] :=
  batch_preserves_size_invariant ["r"] [c3snap] c3root (by decide) rfl
    (by decide) (by decide)
    (GoodBatch.consChild _ _ _ (by decide) (by decide)
      ⟨c3root, rfl, DirInfo.mk ["r", "a"] 0 [] [] false false 0 0,
        by simp [c3root], rfl, rfl, rfl⟩
      (GoodBatch.nil _))

theorem removeFileEntry_none (p : GoPath) (fs : List FileInfo) (target : GoPath)
    (h : ∀ f ∈ fs, joinPath p f.name ≠ target) :
    removeFileEntry p fs target = (fs, 0) := by
  induction fs with
  | nil => rfl
  | cons f rest ih =>
    rw [removeFileEntry, if_neg (h f (by simp))]
    rw [ih (fun f2 h2 => h f2 (List.mem_cons_of_mem _ h2))]

theorem removeFileEntry_split (p : GoPath) (fl₁ fl₂ : List FileInfo)
    (f₀ : FileInfo) (target : GoPath)
    (h₁ : ∀ f ∈ fl₁, joinPath p f.name ≠ target)
    (h₀ : joinPath p f₀.name = target) :
    removeFileEntry p (fl₁ ++ f₀ :: fl₂) target = (fl₁ ++ fl₂, f₀.size) := by
  induction fl₁ with
  | nil => rw [List.nil_append, removeFileEntry, if_pos h₀, List.nil_append]
  | cons f rest ih =>
    rw [List.cons_append, removeFileEntry, if_neg (h₁ f (by simp)),
      ih (fun f2 h2 => h₁ f2 (List.mem_cons_of_mem _ h2)), List.cons_append]

theorem removeSubdirEntry_none (l : List DirInfo) (target : GoPath)
    (h : ∀ x ∈ l, x.path ≠ target) :
    removeSubdirEntry l target = (l, 0, false) := by
  induction l with
  | nil => rfl
  | cons c rest ih =>
    rw [removeSubdirEntry, if_neg (h c (by simp))]
    rw [ih (fun x hx => h x (List.mem_cons_of_mem _ hx))]

theorem removeSubdirEntry_split (l₁ l₂ : List DirInfo) (c : DirInfo)
    (target : GoPath) (h₁ : ∀ x ∈ l₁, x.path ≠ target) (hc : c.path = target) :
    removeSubdirEntry (l₁ ++ c :: l₂) target = (l₁ ++ l₂, c.size, true) := by
  induction l₁ with
  | nil => rw [List.nil_append, removeSubdirEntry, if_pos hc, List.nil_append]
  | cons x rest ih =>
    rw [List.cons_append, removeSubdirEntry, if_neg (h₁ x (by simp)),
      ih (fun y hy => h₁ y (List.mem_cons_of_mem _ hy)), List.cons_append]

theorem removeFileEntry_sum (p : GoPath) (target : GoPath) :
    ∀ fs : List FileInfo,
      sumFileSizes (removeFileEntry p fs target).1
        = sumFileSizes fs - (removeFileEntry p fs target).2 := by
  intro fs
  induction fs with
  | nil => simp [removeFileEntry, sumFileSizes]
  | cons f rest ih =>
    rw [removeFileEntry]
    by_cases hf : joinPath p f.name = target
    · rw [if_pos hf]
      rw [sumFileSizes]
      ring
    · rw [if_neg hf]
      simp only [sumFileSizes]
      rw [ih]
      ring

theorem removeSubdirEntry_sum (target : GoPath) :
    ∀ l : List DirInfo,
      sumSubdirSizes (removeSubdirEntry l target).1
        = sumSubdirSizes l - (removeSubdirEntry l target).2.1 := by
  intro l
  induction l with
  | nil => simp [removeSubdirEntry, sumSubdirSizes]
  | cons c rest ih =>
    rw [removeSubdirEntry]
    by_cases hc : c.path = target
    · rw [if_pos hc]
      rw [sumSubdirSizes]
      ring
    · rw [if_neg hc]
      simp only [sumSubdirSizes]
      rw [ih]
      ring

theorem removeSubdirEntry_sublist (target : GoPath) :
    ∀ l : List DirInfo, (removeSubdirEntry l target).1.Sublist l := by
  intro l
  induction l with
  | nil => simp [removeSubdirEntry]
  | cons c rest ih =>
    rw [removeSubdirEntry]
    by_cases hc : c.path = target
    · rw [if_pos hc]
      exact List.sublist_cons_of_sublist c (List.Sublist.refl rest)
    · rw [if_neg hc]
      exact List.Sublist.cons₂ c ih

theorem removeFromParentFn_fields (target : GoPath) (x : DirInfo) :
    (removeFromParentFn target x).path = x.path ∧
    (removeFromParentFn target x).files = (removeFileEntry x.path x.files target).1 ∧
    (removeFromParentFn target x).subdirs = (removeSubdirEntry x.subdirs target).1 ∧
    (removeFromParentFn target x).size = x.size
      - (removeFileEntry x.path x.files target).2
      - (removeSubdirEntry x.subdirs target).2.1 ∧
    (removeFromParentFn target x).fileCount = x.fileCount ∧
    (removeFromParentFn target x).subdirCount
      = (if (removeSubdirEntry x.subdirs target).2.2 then x.subdirCount - 1
         else x.subdirCount) := by
  cases x with
  | mk p s fs sds ld lg fc sc =>
    rw [removeFromParentFn]
    rcases hrf : removeFileEntry p fs target with ⟨fs2, fsize⟩
    rcases hrs : removeSubdirEntry sds target with ⟨sds2, dsize, dhit⟩
    simp [hrf, hrs]

theorem removeFromParentFn_wf (target : GoPath) (x : DirInfo)
    (hx : wfOk x = true) :
    wfOk (removeFromParentFn target x) = true ∧
    (removeFromParentFn target x).path = x.path := by
  obtain ⟨hp, _, hs, _, _, _⟩ := removeFromParentFn_fields target x
  refine ⟨?_, hp⟩
  rw [wfOk_def, hp, hs]
  rw [wfOk_def, Bool.and_eq_true, Bool.and_eq_true] at hx
  rw [Bool.and_eq_true, Bool.and_eq_true]
  have hsub := removeSubdirEntry_sublist target x.subdirs
  refine ⟨⟨?_, ?_⟩, ?_⟩
  · rw [List.all_eq_true] at hx ⊢
    exact fun c hc => hx.1.1 c (hsub.subset hc)
  · rw [nodupPaths_iff_nodup] at hx ⊢
    exact List.Nodup.sublist (hsub.map DirInfo.path) hx.1.2
  · rw [wfOkList_mem] at hx ⊢
    exact fun c hc => hx.2 c (hsub.subset hc)

theorem sibling_not_contains (t : DirInfo) (hwf : wfOk t = true)
    (x : DirInfo) (hx : x ∈ t.subdirs) (n : String)
    (hxne : x.path ≠ t.path ++ [n]) (s : List String) :
    containsPath x (t.path ++ n :: s) = false := by
  rw [wfOk_def, Bool.and_eq_true, Bool.and_eq_true] at hwf
  cases hcx : containsPath x (t.path ++ n :: s) with
  | false => rfl
  | true =>
    exfalso
    have hxwf : wfOk x = true := (wfOkList_mem t.subdirs).mp hwf.2 x hx
    obtain ⟨mx, hmx⟩ := childShape_concat t.path x
      (List.all_eq_true.mp hwf.1.1 x hx)
    obtain ⟨rx, hrx⟩ := wf_contains_extends x hxwf _ hcx
    rw [hmx, List.append_assoc] at hrx
    have h3 := List.append_cancel_left hrx
    rw [List.singleton_append] at h3
    apply hxne
    rw [hmx, (List.cons_eq_cons.mp h3).1]

theorem find_congr (x y : DirInfo) (hp : x.path = y.path)
    (hs : x.subdirs = y.subdirs) (q : GoPath) (hne : x.path ≠ q) :
    findDirectoryInTree x q = findDirectoryInTree y q := by
  rw [findDirectoryInTree_def, findDirectoryInTree_def, hs, ← hp]
  simp only [if_neg hne]

theorem recomputeSizeFn_fields (x : DirInfo) :
    (recomputeSizeFn x).path = x.path ∧ (recomputeSizeFn x).files = x.files ∧
    (recomputeSizeFn x).subdirs = x.subdirs ∧
    (recomputeSizeFn x).size = sumFileSizes x.files + sumSubdirSizes x.subdirs ∧
    (recomputeSizeFn x).fileCount = x.fileCount ∧
    (recomputeSizeFn x).subdirCount = x.subdirCount := by
  rw [recomputeSizeFn]
  simp

theorem spine_remove_inv :
    ∀ (r : List String) (t : DirInfo) (target : GoPath) (parent : DirInfo),
      wfOk t = true → sizeOk t = true →
      findDirectoryInTree t (t.path ++ r) = some parent →
      ∀ res : DirInfo,
        res = spineApply recomputeSizeFn (removeFromParentFn target) t r →
      wfOk res = true ∧ sizeOk res = true ∧ res.path = t.path ∧
      res.size = t.size - ((removeFileEntry parent.path parent.files target).2
        + (removeSubdirEntry parent.subdirs target).2.1) ∧
      findDirectoryInTree res (t.path ++ r)
        = some (recomputeSizeFn (removeFromParentFn target parent)) := by
  intro r
  induction r with
  | nil =>
    intro t target parent hwf hsz hfind res hres
    rw [List.append_nil, findDirectoryInTree_self] at hfind
    obtain rfl : t = parent := Option.some.inj hfind
    rw [spineApply] at hres
    obtain ⟨hgp, hgf, hgs, hgsz, _, _⟩ := removeFromParentFn_fields target t
    obtain ⟨hrp, hrf, hrs, hrsz, _, _⟩ :=
      recomputeSizeFn_fields (removeFromParentFn target t)
    have hpath : res.path = t.path := by rw [hres, hrp, hgp]
    have hfiles : res.files = (removeFileEntry t.path t.files target).1 := by
      rw [hres, hrf, hgf]
    have hsubs : res.subdirs = (removeSubdirEntry t.subdirs target).1 := by
      rw [hres, hrs, hgs]
    have hsize : res.size = t.size - ((removeFileEntry t.path t.files target).2
        + (removeSubdirEntry t.subdirs target).2.1) := by
      rw [hres, hrsz, hgf, hgs, removeFileEntry_sum, removeSubdirEntry_sum,
        sizeOk_local t hsz]
      ring
    have hsublist := removeSubdirEntry_sublist target t.subdirs
    refine ⟨?_, ?_, hpath, hsize, ?_⟩
    · rw [wfOk_congr res (removeFromParentFn target t) (by rw [hpath, hgp])
        (by rw [hsubs, hgs])]
      exact (removeFromParentFn_wf target t hwf).1
    · rw [sizeOk_def, Bool.and_eq_true, beq_iff_eq]
      constructor
      · rw [hsize, hfiles, hsubs, removeFileEntry_sum, removeSubdirEntry_sum,
          sizeOk_local t hsz]
        ring
      · rw [hsubs, sizeOkList_mem]
        intro c hc
        rw [sizeOk_def, Bool.and_eq_true] at hsz
        exact (sizeOkList_mem t.subdirs).mp hsz.2 c (hsublist.subset hc)
    · rw [List.append_nil, findDirectoryInTree_def, if_pos hpath, hres]
  | cons n r' ih =>
    intro t target parent hwf hsz hfind res hres
    obtain ⟨l₁, c₀, l₂, hsds, hc₀path, hc₀find, hl₁ne, hl₂ne⟩ :=
      find_child_decomp t n r' parent hwf hfind
    have hc₀mem : c₀ ∈ t.subdirs := by rw [hsds]; simp
    have hc₀wf : wfOk c₀ = true := by
      rw [wfOk_def, Bool.and_eq_true, Bool.and_eq_true] at hwf
      exact (wfOkList_mem t.subdirs).mp hwf.2 c₀ hc₀mem
    have hc₀sz : sizeOk c₀ = true := by
      rw [sizeOk_def, Bool.and_eq_true] at hsz
      exact (sizeOkList_mem t.subdirs).mp hsz.2 c₀ hc₀mem
    have hc₀find2 : findDirectoryInTree c₀ (c₀.path ++ r') = some parent := by
      rw [hc₀path]; exact hc₀find
    obtain ⟨hSwf, hSsz, hSpath, hSsize, hSfind⟩ :=
      ih c₀ target parent hc₀wf hc₀sz hc₀find2 _ rfl
    rw [spineApply, hsds,
      mapFirstNamed_split (joinPath t.path n) _ l₁ l₂ c₀
        (fun x hx h => hl₁ne x hx (by rw [h, joinPath, ← hc₀path]))
        (by rw [joinPath, hc₀path])] at hres
    obtain ⟨hrp, hrf, hrs, hrsz, _, _⟩ := recomputeSizeFn_fields
      ((t.withSubdirs (l₁ ++ spineApply recomputeSizeFn
        (removeFromParentFn target) c₀ r' :: l₂)))
    have hpath : res.path = t.path := by
      rw [hres, hrp]; simp
    have hfiles : res.files = t.files := by
      rw [hres, hrf]; simp
    have hsubs : res.subdirs = l₁ ++ spineApply recomputeSizeFn
        (removeFromParentFn target) c₀ r' :: l₂ := by
      rw [hres, hrs]; simp
    have hsum : sumSubdirSizes res.subdirs = sumSubdirSizes t.subdirs
        - ((removeFileEntry parent.path parent.files target).2
          + (removeSubdirEntry parent.subdirs target).2.1) := by
      rw [hsubs, hsds, sumSubdirSizes_append, sumSubdirSizes_append,
        sumSubdirSizes, sumSubdirSizes, hSsize]
      ring
    have hsize : res.size = t.size
        - ((removeFileEntry parent.path parent.files target).2
          + (removeSubdirEntry parent.subdirs target).2.1) := by
      rw [hres, hrsz]
      rw [show (t.withSubdirs (l₁ ++ spineApply recomputeSizeFn
        (removeFromParentFn target) c₀ r' :: l₂)).files = t.files by simp]
      rw [show (t.withSubdirs (l₁ ++ spineApply recomputeSizeFn
        (removeFromParentFn target) c₀ r' :: l₂)).subdirs
          = l₁ ++ spineApply recomputeSizeFn
            (removeFromParentFn target) c₀ r' :: l₂ by simp]
      rw [show l₁ ++ spineApply recomputeSizeFn
          (removeFromParentFn target) c₀ r' :: l₂ = res.subdirs from hsubs.symm]
      rw [hsum, sizeOk_local t hsz]
      ring
    have hmapeq : res.subdirs.map DirInfo.path = t.subdirs.map DirInfo.path := by
      rw [hsubs, hsds]
      simp [hSpath]
    refine ⟨?_, ?_, hpath, hsize, ?_⟩
    · rw [wfOk_def, Bool.and_eq_true, Bool.and_eq_true]
      rw [wfOk_def, Bool.and_eq_true, Bool.and_eq_true] at hwf
      refine ⟨⟨?_, ?_⟩, ?_⟩
      · rw [hpath]
        exact all_childShape_of_map_eq t.path t.subdirs _ hmapeq hwf.1.1
      · exact nodupPaths_of_map_eq t.subdirs _ hmapeq hwf.1.2
      · rw [hsubs, wfOkList_mem]
        intro x hx
        rcases List.mem_append.mp hx with hx1 | hx1
        · exact (wfOkList_mem t.subdirs).mp hwf.2 x (by rw [hsds]; simp [hx1])
        · rcases List.mem_cons.mp hx1 with rfl | hx2
          · exact hSwf
          · refine (wfOkList_mem t.subdirs).mp hwf.2 x ?_
            rw [hsds]
            exact List.mem_append.mpr (Or.inr (List.mem_cons_of_mem _ hx2))
    · rw [sizeOk_def, Bool.and_eq_true, beq_iff_eq]
      constructor
      · rw [hsize, hfiles, hsum, sizeOk_local t hsz]
        ring
      · rw [hsubs, sizeOkList_mem]
        intro x hx
        rw [sizeOk_def, Bool.and_eq_true] at hsz
        rcases List.mem_append.mp hx with hx1 | hx1
        · exact (sizeOkList_mem t.subdirs).mp hsz.2 x (by rw [hsds]; simp [hx1])
        · rcases List.mem_cons.mp hx1 with rfl | hx2
          · exact hSsz
          · refine (sizeOkList_mem t.subdirs).mp hsz.2 x ?_
            rw [hsds]
            exact List.mem_append.mpr (Or.inr (List.mem_cons_of_mem _ hx2))
    · have hq0 : t.path ≠ t.path ++ n :: r' := by
        intro h
        have := congrArg List.length h
        simp at this
      rw [findDirectoryInTree_def, if_neg (by rw [hpath]; exact hq0), hsubs]
      rw [findInSubdirs_append l₁ l₂ _ _ ?hl1none]
      case hl1none =>
        intro x hx
        apply contains_false_find_none
        exact sibling_not_contains t hwf x (by rw [hsds]; simp [hx])
          n (fun h => hl₁ne x hx (by rw [h, ← hc₀path])) r'
      have happ : c₀.path ++ r' = t.path ++ n :: r' := by
        rw [hc₀path, List.append_assoc, List.singleton_append]
      rw [happ] at hSfind
      rw [hSfind]

theorem removeItemFromTree_inv (t : DirInfo) (target : GoPath) (parent : DirInfo)
    (hwf : wfOk t = true) (hsz : sizeOk t = true) (hne : t.path ≠ [])
    (hfind : findDirectoryInTree t (dirOf target) = some parent) :
    wfOk (removeItemFromTree t target) = true ∧
    sizeOk (removeItemFromTree t target) = true ∧
    (removeItemFromTree t target).path = t.path ∧
    (removeItemFromTree t target).size = t.size
      - ((removeFileEntry parent.path parent.files target).2
        + (removeSubdirEntry parent.subdirs target).2.1) ∧
    findDirectoryInTree (removeItemFromTree t target) (dirOf target)
      = some (recomputeSizeFn (removeFromParentFn target parent)) := by
  have hcont : containsPath t (dirOf target) = true := by
    rw [containsPath, hfind]; rfl
  obtain ⟨r, hr⟩ := wf_contains_extends t hwf _ hcont
  have hgoal : removeItemFromTree t target
      = updateParentSizes
          (updateAt t (dirOf target) (removeFromParentFn target)) (dirOf target) := by
    rw [removeItemFromTree]
    simp only [hfind]
  have hspine : removeItemFromTree t target
      = spineApply recomputeSizeFn (removeFromParentFn target) t r := by
    rw [hgoal, hr, updateParentSizes]
    exact walk_fuses_to_spine recomputeSizeFn
      (fun x => ⟨by simp [recomputeSizeFn], by simp [recomputeSizeFn]⟩) r t _ hwf hne
      (by rw [← hr]; exact hcont)
      (fun x _ hwx => removeFromParentFn_wf target x hwx)
  obtain ⟨h1, h2, h3, h4, h5⟩ := spine_remove_inv r t target parent hwf hsz
    (by rw [← hr]; exact hfind) _ hspine
  refine ⟨h1, h2, h3, h4, ?_⟩
  rw [hr]
  exact h5

theorem sumFileSizes_append (l₁ l₂ : List FileInfo) :
    sumFileSizes (l₁ ++ l₂) = sumFileSizes l₁ + sumFileSizes l₂ := by
  induction l₁ with
  | nil => simp [sumFileSizes]
  | cons f fs ih =>
    rw [List.cons_append, sumFileSizes, sumFileSizes, ih]
    ring

/-- Claim C8 as amended: provided the tree root's path is neither "/"
nor "." (the ancestor-walk terminators), removeItemFromTree detaches the
target from its parent's subdirs (or files), subtracts its size from the
parent, and re-propagates corrected totals up to the root, preserving
the size invariant; the concrete scenario deletes a loaded 500-byte
subdirectory from a 2000-byte root, leaving root size 1500 and the
subdirectory absent. -/
theorem removeNode_correct :
    (∀ (t : DirInfo) (target : GoPath) (parent : DirInfo)
        (l₁ l₂ : List DirInfo) (c : DirInfo),
      wfOk t = true → sizeOk t = true → t.path ≠ [] →
      findDirectoryInTree t (dirOf target) = some parent →
      parent.subdirs = l₁ ++ c :: l₂ → c.path = target →
      (∀ f ∈ parent.files, joinPath parent.path f.name ≠ target) →
      ∃ parent2,
        findDirectoryInTree (removeItemFromTree t target) (dirOf target)
          = some parent2 ∧
        parent2.subdirs = l₁ ++ l₂ ∧
        (∀ x ∈ parent2.subdirs, x.path ≠ target) ∧
        parent2.size = parent.size - c.size ∧
        (removeItemFromTree t target).size = t.size - c.size ∧
        (removeItemFromTree t target).path = t.path ∧
        sizeOk (removeItemFromTree t target) = true ∧
        wfOk (removeItemFromTree t target) = true) ∧
    (∀ (t : DirInfo) (target : GoPath) (parent : DirInfo)
        (fl₁ fl₂ : List FileInfo) (f₀ : FileInfo),
      wfOk t = true → sizeOk t = true → t.path ≠ [] →
      findDirectoryInTree t (dirOf target) = some parent →
      parent.files = fl₁ ++ f₀ :: fl₂ →
      (∀ f ∈ fl₁, joinPath parent.path f.name ≠ target) →
      joinPath parent.path f₀.name = target →
      (∀ x ∈ parent.subdirs, x.path ≠ target) →
      ∃ parent2,
        findDirectoryInTree (removeItemFromTree t target) (dirOf target)
          = some parent2 ∧
        parent2.files = fl₁ ++ fl₂ ∧
        parent2.size = parent.size - f₀.size ∧
        (removeItemFromTree t target).size = t.size - f₀.size ∧
        sizeOk (removeItemFromTree t target) = true) ∧
    ((removeItemFromTree c8root ["r", "s"]).size = 1500 ∧
      (removeItemFromTree c8root ["r", "s"]).subdirs = []) := by
  refine ⟨?_, ?_, by decide, rfl⟩
  · intro t target parent l₁ l₂ c hwf hsz hne hfind hsubs hcp hnof
    have hpwf : wfOk parent = true := find_wfOk t _ parent hfind hwf
    have hpsz : sizeOk parent = true := find_sizeOk t _ parent hfind hsz
    have hnodup : nodupPaths parent.subdirs = true := by
      rw [wfOk_def, Bool.and_eq_true, Bool.and_eq_true] at hpwf
      exact hpwf.1.2
    rw [hsubs] at hnodup
    obtain ⟨hl₁ne, hl₂ne, _⟩ := nodupPaths_split l₁ l₂ c hnodup
    have hrs : removeSubdirEntry parent.subdirs target = (l₁ ++ l₂, c.size, true) := by
      rw [hsubs]
      exact removeSubdirEntry_split l₁ l₂ c target
        (fun x hx h => hl₁ne x hx (h.trans hcp.symm)) hcp
    have hrf : removeFileEntry parent.path parent.files target = (parent.files, 0) :=
      removeFileEntry_none parent.path parent.files target hnof
    obtain ⟨h1, h2, h3, h4, h5⟩ := removeItemFromTree_inv t target parent hwf hsz hne hfind
    obtain ⟨hgp, hgf, hgs, hgsz, _, _⟩ := removeFromParentFn_fields target parent
    obtain ⟨hrp, hrf2, hrs2, hrsz, _, _⟩ :=
      recomputeSizeFn_fields (removeFromParentFn target parent)
    refine ⟨recomputeSizeFn (removeFromParentFn target parent), h5, ?_, ?_, ?_, ?_, h3, h2, h1⟩
    · rw [hrs2, hgs, hrs]
    · intro x hx
      rw [hrs2, hgs, hrs] at hx
      rcases List.mem_append.mp hx with hx1 | hx1
      · exact fun h => hl₁ne x hx1 (h.trans hcp.symm)
      · exact fun h => hl₂ne x hx1 (h.trans hcp.symm)
    · rw [hrsz, hgf, hgs, hrf, hrs]
      have hloc := sizeOk_local parent hpsz
      rw [hsubs, sumSubdirSizes_append, sumSubdirSizes] at hloc
      rw [sumSubdirSizes_append, hloc]
      ring
    · rw [h4, hrf, hrs]
      ring
  · intro t target parent fl₁ fl₂ f₀ hwf hsz hne hfind hfl hnof hf₀ hnos
    have hpsz : sizeOk parent = true := find_sizeOk t _ parent hfind hsz
    have hrs : removeSubdirEntry parent.subdirs target = (parent.subdirs, 0, false) :=
      removeSubdirEntry_none parent.subdirs target hnos
    have hrf : removeFileEntry parent.path parent.files target = (fl₁ ++ fl₂, f₀.size) := by
      rw [hfl]
      exact removeFileEntry_split parent.path fl₁ fl₂ f₀ target hnof hf₀
    obtain ⟨h1, h2, h3, h4, h5⟩ := removeItemFromTree_inv t target parent hwf hsz hne hfind
    obtain ⟨hgp, hgf, hgs, hgsz, _, _⟩ := removeFromParentFn_fields target parent
    obtain ⟨hrp, hrf2, hrs2, hrsz, _, _⟩ :=
      recomputeSizeFn_fields (removeFromParentFn target parent)
    refine ⟨recomputeSizeFn (removeFromParentFn target parent), h5, ?_, ?_, ?_, h2⟩
    · rw [hrf2, hgf, hrf]
    · rw [hrsz, hgf, hgs, hrf, hrs]
      have hloc := sizeOk_local parent hpsz
      rw [hfl, sumFileSizes_append, sumFileSizes] at hloc
      rw [sumFileSizes_append, hloc]
      ring
    · rw [h4, hrf, hrs]
      ring

/-- Claim C8 counterexample: with the tree rooted at "." (empty segment
list), deleting the depth-two subdirectory a/b of size 500 updates the
parent a but never the root, whose Size stays 600 instead of the
corrected 100, breaking the claimed re-propagation up to the root. -/
theorem removeNode_skips_root_at_dot :
    sizeOk c8badRoot = true ∧ wfOk c8badRoot = true ∧
    (removeItemFromTree c8badRoot ["a", "b"]).size = 600 ∧
    sizeOk (removeItemFromTree c8badRoot ["a", "b"]) = false := by
  refine ⟨by decide, by decide, by decide, by decide⟩

/-- Witness for the amended claim C8 at the 2000/500 scenario. -/
theorem removeNode_correct_witness :
    ∃ parent2,
      findDirectoryInTree (removeItemFromTree c8root ["r", "s"]) (dirOf ["r", "s"])
        = some parent2 ∧
      parent2.subdirs = [] ++ [] ∧
      (∀ x ∈ parent2.subdirs, x.path ≠ ["r", "s"]) ∧
      parent2.size = c8root.size
        - (DirInfo.mk ["r", "s"] 500 [.mk "x" 500] [] true false 1 0).size ∧
      (removeItemFromTree c8root ["r", "s"]).size = c8root.size
        - (DirInfo.mk ["r", "s"] 500 [.mk "x" 500] [] true false 1 0).size ∧
      (removeItemFromTree c8root ["r", "s"]).path = c8root.path ∧
      sizeOk (removeItemFromTree c8root ["r", "s"]) = true ∧
      wfOk (removeItemFromTree c8root ["r", "s"]) = true :=
  removeNode_correct.1 c8root ["r", "s"] c8root [] []
    (DirInfo.mk ["r", "s"] 500 [.mk "x" 500] [] true false 1 0)
    (by decide) (by decide) (by decide) rfl rfl rfl
    (by decide)

theorem removeItem_parent_after_empty_root (t : DirInfo) (target : GoPath)
    (parent : DirInfo) (hwf : wfOk t = true) (hsz : sizeOk t = true)
    (hroot : t.path = [])
    (hfind : findDirectoryInTree t (dirOf target) = some parent) :
    ∃ parent2,
      findDirectoryInTree (removeItemFromTree t target) (dirOf target)
        = some parent2 ∧
      parent2.files = (removeFileEntry parent.path parent.files target).1 ∧
      parent2.subdirs = (removeSubdirEntry parent.subdirs target).1 ∧
      parent2.fileCount = parent.fileCount ∧
      parent2.subdirCount = (if (removeSubdirEntry parent.subdirs target).2.2
        then parent.subdirCount - 1 else parent.subdirCount) := by
  cases hpp : dirOf target with
  | nil =>
    rw [hpp] at hfind
    have hft : findDirectoryInTree t [] = some t := by
      rw [findDirectoryInTree_def, if_pos hroot]
    rw [hft] at hfind
    obtain rfl : t = parent := Option.some.inj hfind
    have hres : removeItemFromTree t target = removeFromParentFn target t := by
      simp only [removeItemFromTree, hpp, hft]
      have h0 : updateParentSizes (updateAt t [] (removeFromParentFn target)) []
          = updateAt t [] (removeFromParentFn target) := rfl
      rw [h0, updateAt_def, if_pos hroot]
    obtain ⟨hgp, hgf, hgs, _, hgfc, hgsc⟩ := removeFromParentFn_fields target t
    refine ⟨removeFromParentFn target t, ?_, hgf, hgs, hgfc, hgsc⟩
    rw [hres, findDirectoryInTree_def, if_pos (by rw [hgp]; exact hroot)]
  | cons n r' =>
    rw [hpp] at hfind
    have hfind2 : findDirectoryInTree t (t.path ++ n :: r') = some parent := by
      rw [hroot, List.nil_append]
      exact hfind
    obtain ⟨l₁, c₀, l₂, hsds, hc₀path, hc₀find, hl₁ne, hl₂ne⟩ :=
      find_child_decomp t n r' parent hwf hfind2
    have hc₀path2 : c₀.path = [n] := by rw [hc₀path, hroot, List.nil_append]
    have hc₀mem : c₀ ∈ t.subdirs := by rw [hsds]; simp
    have hc₀wf : wfOk c₀ = true := by
      rw [wfOk_def, Bool.and_eq_true, Bool.and_eq_true] at hwf
      exact (wfOkList_mem t.subdirs).mp hwf.2 c₀ hc₀mem
    have hc₀sz : sizeOk c₀ = true := by
      rw [sizeOk_def, Bool.and_eq_true] at hsz
      exact (sizeOkList_mem t.subdirs).mp hsz.2 c₀ hc₀mem
    have happ : c₀.path ++ r' = n :: r' := by
      rw [hc₀path2, List.singleton_append]
    have hc₀find2 : findDirectoryInTree c₀ (c₀.path ++ r') = some parent := by
      rw [hc₀path]
      exact hc₀find
    have hl₁mem : ∀ x ∈ l₁, x ∈ t.subdirs := by
      intro x hx; rw [hsds]; exact List.mem_append.mpr (Or.inl hx)
    have hl₂mem : ∀ x ∈ l₂, x ∈ t.subdirs := by
      intro x hx
      rw [hsds]
      exact List.mem_append.mpr (Or.inr (List.mem_cons_of_mem _ hx))
    have hsibm : ∀ x ∈ t.subdirs, x.path ≠ c₀.path →
        ∀ s : List String, containsPath x (n :: s) = false := by
      intro x hx hxne s
      have := sibling_not_contains t hwf x hx n
        (fun h => hxne (h.trans hc₀path.symm)) s
      rw [hroot, List.nil_append] at this
      exact this
    have hshape2 : ∀ q ∈ chainDesc (n :: r'), ∃ s, q = n :: s := by
      intro q hq
      rw [chainDesc, List.mem_reverse] at hq
      exact mem_initSegsAsc_shape n r' q hq
    have hres : removeItemFromTree t target
        = t.withSubdirs (l₁ ++ ((chainDesc (n :: r')).foldl
            (fun a q => updateAt a q recomputeSizeFn)
            (updateAt c₀ (n :: r') (removeFromParentFn target))) :: l₂) := by
      simp only [removeItemFromTree, hpp, hfind]
      rw [updateParentSizes, updateAt_def,
        if_neg (by rw [hroot]; intro h; cases h), hsds]
      rw [updateAtList_split l₁ l₂ c₀ _ _
        (fun x hx => hsibm x (hl₁mem x hx)
          (fun h => hl₁ne x hx (by rw [h])) r')
        (fun x hx => hsibm x (hl₂mem x hx)
          (fun h => hl₂ne x hx (by rw [h])) r')]
      rw [foldl_updateAt_into_child recomputeSizeFn t l₁ l₂ (chainDesc (n :: r')) _
        (fun q hq => by
          obtain ⟨s, rfl⟩ := hshape2 q hq
          rw [hroot]
          intro h
          cases h)
        (fun q hq x hx => by
          obtain ⟨s, rfl⟩ := hshape2 q hq
          exact hsibm x (hl₁mem x hx) (fun h => hl₁ne x hx (by rw [h])) s)
        (fun q hq x hx => by
          obtain ⟨s, rfl⟩ := hshape2 q hq
          exact hsibm x (hl₂mem x hx) (fun h => hl₂ne x hx (by rw [h])) s)]
    have hCspine : (chainDesc (n :: r')).foldl
          (fun a q => updateAt a q recomputeSizeFn)
          (updateAt c₀ (n :: r') (removeFromParentFn target))
        = spineApply recomputeSizeFn (removeFromParentFn target) c₀ r' := by
      rw [show (n :: r' : GoPath) = c₀.path ++ r' from happ.symm]
      exact walk_fuses_to_spine recomputeSizeFn
        (fun x => ⟨by simp [recomputeSizeFn], by simp [recomputeSizeFn]⟩) r' c₀ _
        hc₀wf (by rw [hc₀path2]; simp)
        (by rw [containsPath, hc₀find2]; rfl)
        (fun x _ hwx => removeFromParentFn_wf target x hwx)
    obtain ⟨_, _, _, _, hSfind⟩ := spine_remove_inv r' c₀ target parent
      hc₀wf hc₀sz hc₀find2 _ rfl
    obtain ⟨hgp, hgf, hgs, _, hgfc, hgsc⟩ := removeFromParentFn_fields target parent
    obtain ⟨hrp, hrf2, hrs2, _, hrfc, hrsc⟩ :=
      recomputeSizeFn_fields (removeFromParentFn target parent)
    refine ⟨recomputeSizeFn (removeFromParentFn target parent), ?_,
      by rw [hrf2, hgf], by rw [hrs2, hgs], by rw [hrfc, hgfc], by rw [hrsc, hgsc]⟩
    rw [hres, hCspine, findDirectoryInTree_def,
      if_neg (by simp [hroot]), DirInfo.withSubdirs_subdirs]
    rw [findInSubdirs_append l₁ l₂ _ _
      (fun x hx => contains_false_find_none x _
        (hsibm x (hl₁mem x hx) (fun h => hl₁ne x hx (by rw [h])) r'))]
    rw [happ] at hSfind
    rw [hSfind]

theorem removeItem_parent_after (t : DirInfo) (target : GoPath)
    (parent : DirInfo) (hwf : wfOk t = true) (hsz : sizeOk t = true)
    (hfind : findDirectoryInTree t (dirOf target) = some parent) :
    ∃ parent2,
      findDirectoryInTree (removeItemFromTree t target) (dirOf target)
        = some parent2 ∧
      parent2.files = (removeFileEntry parent.path parent.files target).1 ∧
      parent2.subdirs = (removeSubdirEntry parent.subdirs target).1 ∧
      parent2.fileCount = parent.fileCount ∧
      parent2.subdirCount = (if (removeSubdirEntry parent.subdirs target).2.2
        then parent.subdirCount - 1 else parent.subdirCount) := by
  by_cases hroot : t.path = []
  · exact removeItem_parent_after_empty_root t target parent hwf hsz hroot hfind
  · obtain ⟨_, _, _, _, h5⟩ :=
      removeItemFromTree_inv t target parent hwf hsz hroot hfind
    obtain ⟨hgp, hgf, hgs, _, hgfc, hgsc⟩ := removeFromParentFn_fields target parent
    obtain ⟨hrp, hrf2, hrs2, _, hrfc, hrsc⟩ :=
      recomputeSizeFn_fields (removeFromParentFn target parent)
    exact ⟨recomputeSizeFn (removeFromParentFn target parent), h5,
      by rw [hrf2, hgf], by rw [hrs2, hgs], by rw [hrfc, hgfc], by rw [hrsc, hgsc]⟩

/-- Claim C10: cached cardinalities after deletion in removeItemFromTree:
when the target matches a subdirectory entry of the parent, the parent's
subdirCount is decremented by one while its fileCount stays unchanged;
when the target matches a file entry, the parent's fileCount is left
unchanged while the files list shrinks by one, so a fileCount cache that
was accurate before the deletion exceeds the length of the files list by
one afterwards. -/
theorem removeItem_cached_counts (t : DirInfo) (target : GoPath)
    (parent : DirInfo) (hwf : wfOk t = true) (hsz : sizeOk t = true)
    (hfind : findDirectoryInTree t (dirOf target) = some parent) :
    ((removeSubdirEntry parent.subdirs target).2.2 = true →
      ∃ parent2,
        findDirectoryInTree (removeItemFromTree t target) (dirOf target)
          = some parent2 ∧
        parent2.subdirCount = parent.subdirCount - 1 ∧
        parent2.fileCount = parent.fileCount) ∧
    (∀ fl₁ f₀ fl₂, parent.files = fl₁ ++ f₀ :: fl₂ →
      (∀ f ∈ fl₁, joinPath parent.path f.name ≠ target) →
      joinPath parent.path f₀.name = target →
      parent.fileCount = (parent.files.length : Int) →
      ∃ parent2,
        findDirectoryInTree (removeItemFromTree t target) (dirOf target)
          = some parent2 ∧
        parent2.fileCount = parent.fileCount ∧
        parent2.fileCount = (parent2.files.length : Int) + 1) := by
  obtain ⟨parent2, hf2, hfiles, hsubs, hfc, hsc⟩ :=
    removeItem_parent_after t target parent hwf hsz hfind
  constructor
  · intro hflag
    exact ⟨parent2, hf2, by rw [hsc, if_pos hflag], hfc⟩
  · intro fl₁ f₀ fl₂ hfl h₁ h₀ hcache
    refine ⟨parent2, hf2, hfc, ?_⟩
    have hre : removeFileEntry parent.path parent.files target
        = (fl₁ ++ fl₂, f₀.size) := by
      rw [hfl]
      exact removeFileEntry_split parent.path fl₁ fl₂ f₀ target h₁ h₀
    rw [hfc, hcache, hfiles, hre, hfl]
    push_cast
    simp only [List.length_append, List.length_cons]
    push_cast
    ring

theorem removeItem_cached_counts_witness :
    (∃ parent2,
      findDirectoryInTree (removeItemFromTree c8root ["r", "s"]) ["r"]
        = some parent2 ∧
      parent2.subdirCount = c8root.subdirCount - 1 ∧
      parent2.fileCount = c8root.fileCount) ∧
    (∃ parent2,
      findDirectoryInTree (removeItemFromTree c8root ["r", "big"]) ["r"]
        = some parent2 ∧
      parent2.fileCount = c8root.fileCount ∧
      parent2.fileCount = (parent2.files.length : Int) + 1) := by
  constructor
  · exact (removeItem_cached_counts c8root ["r", "s"] c8root (by decide)
      (by decide) rfl).1 (by decide)
  · exact (removeItem_cached_counts c8root ["r", "big"] c8root (by decide)
      (by decide) rfl).2 [] ⟨"big", 1500⟩ [] rfl (by simp) (by decide)
      (by decide)
